import Mathlib

/-!
Verification of the limb-level exact-division and squaring core of the
malachite arbitrary-precision arithmetic library against its specification.

The build is the 32-bit one (`platform_32.rs`: `pub type Limb = u32`), so a
limb is modelled as a natural number below `2 ^ 32` and a limb sequence as a
little-endian `List Nat`.  Machine arithmetic is modelled with explicit
`% 2 ^ 32` where the source wraps.
-/

/-- The number of bits in a limb (`Limb::WIDTH` for the 32-bit build). -/
def limbWidth : Nat := 32

/-- The limb base, `2 ^ Limb::WIDTH` = `2 ^ 32`. -/
def limbBase : Nat := 2 ^ limbWidth

theorem limbBase_eq : limbBase = 4294967296 := rfl

theorem limbBase_pos : 0 < limbBase := by decide

theorem one_lt_limbBase : 1 < limbBase := by decide

/-- The nonnegative integer represented by a little-endian limb sequence
(each entry is expected to be below `limbBase`). -/
def limbsVal : List Nat → Nat
  | [] => 0
  | x :: xs => x + limbBase * limbsVal xs

/-- The `n` least-significant base-`2 ^ 32` limbs of the natural number `v`. -/
def natToLimbs (v n : Nat) : List Nat :=
  match n with
  | 0 => []
  | n + 1 => v % limbBase :: natToLimbs (v / limbBase) n

@[simp] theorem natToLimbs_zero (v : Nat) : natToLimbs v 0 = [] := rfl

theorem natToLimbs_succ (v n : Nat) :
    natToLimbs v (n + 1) = v % limbBase :: natToLimbs (v / limbBase) n := rfl

@[simp] theorem length_natToLimbs (v n : Nat) : (natToLimbs v n).length = n := by
  induction n generalizing v with
  | zero => rfl
  | succ n ih => simp [natToLimbs, ih]

@[simp] theorem limbsVal_nil : limbsVal [] = 0 := rfl

theorem limbsVal_cons (x : Nat) (xs : List Nat) :
    limbsVal (x :: xs) = x + limbBase * limbsVal xs := rfl

theorem limbsVal_append (xs ys : List Nat) :
    limbsVal (xs ++ ys) = limbsVal xs + limbBase ^ xs.length * limbsVal ys := by
  induction xs with
  | nil => simp [limbsVal]
  | cons x xs ih =>
      simp only [List.cons_append, limbsVal_cons, ih, List.length_cons]
      ring

theorem limbsVal_natToLimbs (v n : Nat) :
    limbsVal (natToLimbs v n) = v % limbBase ^ n := by
  induction n generalizing v with
  | zero => simp [limbsVal, Nat.mod_one]
  | succ n ih =>
      simp only [natToLimbs, limbsVal_cons, ih]
      rw [pow_succ, mul_comm (limbBase ^ n) limbBase, Nat.mod_mul]

/-- Every limb produced by `natToLimbs` is a genuine 32-bit limb. -/
theorem natToLimbs_lt (v n : Nat) : ∀ x ∈ natToLimbs v n, x < limbBase := by
  induction n generalizing v with
  | zero => simp
  | succ n ih =>
      intro x hx
      simp only [natToLimbs, List.mem_cons] at hx
      rcases hx with h | h
      · exact h ▸ Nat.mod_lt _ limbBase_pos
      · exact ih _ x h

/-- A limb sequence whose entries are all below the base represents a value
below `limbBase ^ length`. -/
theorem limbsVal_lt (xs : List Nat) (h : ∀ x ∈ xs, x < limbBase) :
    limbsVal xs < limbBase ^ xs.length := by
  induction xs with
  | nil => simp [limbsVal]
  | cons x xs ih =>
      have hx : x < limbBase := h x (by simp)
      have hxs : limbsVal xs < limbBase ^ xs.length :=
        ih fun y hy => h y (by simp [hy])
      simp only [limbsVal_cons, List.length_cons, pow_succ]
      calc x + limbBase * limbsVal xs
          < limbBase + limbBase * limbsVal xs := Nat.add_lt_add_right hx _
        _ = limbBase * (1 + limbsVal xs) := by ring
        _ ≤ limbBase * limbBase ^ xs.length := Nat.mul_le_mul_left _ (by omega)
        _ = limbBase ^ xs.length * limbBase := mul_comm _ _

/-- Wrapping 32-bit multiplication (`u32::wrapping_mul`). -/
def wmul (a b : Nat) : Nat := a * b % limbBase

/-- Wrapping 32-bit subtraction (`u32::wrapping_sub`). -/
def wsub (a b : Nat) : Nat := (a % limbBase + (limbBase - b % limbBase)) % limbBase

theorem int_natCast_mod_modEq (x n : Nat) :
    ((x % n : Nat) : Int) ≡ (x : Int) [ZMOD (n : Int)] := by
  rw [Int.natCast_mod]
  exact Int.emod_emod_of_dvd _ dvd_rfl

/-- `wsub` agrees with integer subtraction modulo the limb base. -/
theorem wsub_int (a b : Nat) :
    (wsub a b : Int) ≡ (a : Int) - b [ZMOD (limbBase : Int)] := by
  have hb : b % limbBase ≤ limbBase := le_of_lt (Nat.mod_lt _ limbBase_pos)
  have hcast : (wsub a b : Int)
      = (((a % limbBase : Nat) : Int) + ((limbBase : Nat) : Int)
          - ((b % limbBase : Nat) : Int)) % (limbBase : Int) := by
    unfold wsub
    rw [Int.natCast_mod]
    congr 1
    push_cast [hb]
    ring
  rw [hcast]
  have h2 : ((a % limbBase : Nat) : Int) ≡ (a : Int) [ZMOD (limbBase : Int)] :=
    int_natCast_mod_modEq a limbBase
  have h3 : ((b % limbBase : Nat) : Int) ≡ (b : Int) [ZMOD (limbBase : Int)] :=
    int_natCast_mod_modEq b limbBase
  have h4 : ((limbBase : Nat) : Int) ≡ 0 [ZMOD (limbBase : Int)] := by
    unfold Int.ModEq
    simp
  refine Int.ModEq.trans (Int.emod_emod_of_dvd _ dvd_rfl) ?_
  have h5 := (h2.add h4).sub h3
  simpa using h5

/-- `wmul` agrees with integer multiplication modulo the limb base. -/
theorem wmul_int (a b : Nat) :
    (wmul a b : Nat) ≡ a * b [MOD limbBase] := by
  unfold wmul
  exact Nat.mod_modEq _ _

/-! ### The single-limb binary modular inverse (`div_exact.rs`)

`limbs_modular_invert_limb` finds, for an odd limb `x`, the `y` with
`x * y ≡ 1 (mod 2 ^ 32)`: an 8-bit table seed followed by Newton doubling
rounds `y ← 2y - y²x`.  -/

/-- `INVERT_LIMB_TABLE` from `div_exact.rs`: the entry at index `i` is the
multiplicative inverse of `2 * i + 1` modulo `2 ^ 8`. -/
def INVERT_LIMB_TABLE : List Nat := [
  0x01, 0xab, 0xcd, 0xb7, 0x39, 0xa3, 0xc5, 0xef, 0xf1, 0x1b, 0x3d, 0xa7, 0x29, 0x13, 0x35, 0xdf,
  0xe1, 0x8b, 0xad, 0x97, 0x19, 0x83, 0xa5, 0xcf, 0xd1, 0xfb, 0x1d, 0x87, 0x09, 0xf3, 0x15, 0xbf,
  0xc1, 0x6b, 0x8d, 0x77, 0xf9, 0x63, 0x85, 0xaf, 0xb1, 0xdb, 0xfd, 0x67, 0xe9, 0xd3, 0xf5, 0x9f,
  0xa1, 0x4b, 0x6d, 0x57, 0xd9, 0x43, 0x65, 0x8f, 0x91, 0xbb, 0xdd, 0x47, 0xc9, 0xb3, 0xd5, 0x7f,
  0x81, 0x2b, 0x4d, 0x37, 0xb9, 0x23, 0x45, 0x6f, 0x71, 0x9b, 0xbd, 0x27, 0xa9, 0x93, 0xb5, 0x5f,
  0x61, 0x0b, 0x2d, 0x17, 0x99, 0x03, 0x25, 0x4f, 0x51, 0x7b, 0x9d, 0x07, 0x89, 0x73, 0x95, 0x3f,
  0x41, 0xeb, 0x0d, 0xf7, 0x79, 0xe3, 0x05, 0x2f, 0x31, 0x5b, 0x7d, 0xe7, 0x69, 0x53, 0x75, 0x1f,
  0x21, 0xcb, 0xed, 0xd7, 0x59, 0xc3, 0xe5, 0x0f, 0x11, 0x3b, 0x5d, 0xc7, 0x49, 0x33, 0x55, 0xff]

/-- `limbs_modular_invert_limb` from `div_exact.rs` (32-bit build, so the
third Newton round guarded by `!cfg!(feature = "32_bit_limbs")` is absent):
table seed at index `(x >> 1) mod 2^7`, then two Newton doublings.  The
source's leading `assert!(x.odd())` is modelled by
`limbs_modular_invert_limb_checked`. -/
def limbs_modular_invert_limb (x : Nat) : Nat :=
  let index := x / 2 % 2 ^ 7
  let inv0 := INVERT_LIMB_TABLE.getD index 0
  let inv1 := wsub (inv0 * 2) (wmul (inv0 * inv0) x)
  wsub (inv1 * 2 % limbBase) (wmul (wmul inv1 inv1) x)

/-- `limbs_modular_invert_limb` together with its unconditional
`assert!(x.odd())`: `none` models the panic on an even argument. -/
def limbs_modular_invert_limb_checked (x : Nat) : Option Nat :=
  if x % 2 = 1 then some (limbs_modular_invert_limb x) else none

/-- The seed table is a table of inverses modulo `2 ^ 8` (this is
`test_invert_limb_table` from the source, proved rather than tested). -/
theorem INVERT_LIMB_TABLE_correct :
    ∀ i, i < 128 → (2 * i + 1) * INVERT_LIMB_TABLE.getD i 0 % 2 ^ 8 = 1 := by decide

/-- The table seed inverts `x` modulo `2 ^ 8`. -/
theorem invert_table_seed {x : Nat} (hx : x % 2 = 1) :
    x * INVERT_LIMB_TABLE.getD (x / 2 % 2 ^ 7) 0 ≡ 1 [MOD 2 ^ 8] := by
  have hi : x / 2 % 2 ^ 7 < 128 := Nat.mod_lt _ (by decide)
  have htab := INVERT_LIMB_TABLE_correct _ hi
  have hxm : x % 2 ^ 8 = 2 * (x / 2 % 2 ^ 7) + 1 := by omega
  calc x * INVERT_LIMB_TABLE.getD (x / 2 % 2 ^ 7) 0
      ≡ x % 2 ^ 8 * INVERT_LIMB_TABLE.getD (x / 2 % 2 ^ 7) 0 [MOD 2 ^ 8] :=
        ((Nat.mod_modEq x (2 ^ 8)).symm).mul_right _
    _ = (2 * (x / 2 % 2 ^ 7) + 1) * INVERT_LIMB_TABLE.getD (x / 2 % 2 ^ 7) 0 := by rw [hxm]
    _ ≡ 1 [MOD 2 ^ 8] := by unfold Nat.ModEq; rw [htab]; norm_num

theorem wmul_int_modEq (a b : Nat) :
    ((wmul a b : Nat) : Int) ≡ (a : Int) * b [ZMOD (limbBase : Int)] := by
  unfold wmul
  rw [Int.natCast_mod]
  push_cast
  exact Int.emod_emod_of_dvd _ dvd_rfl

/-- One Newton doubling: a value congruent to `2y - y²x` modulo `2 ^ 32`
inverts `x` modulo `2 ^ (2k)` whenever `y` inverts `x` modulo `2 ^ k`. -/
theorem invert_newton_step {x y z k : Nat} (hk : 2 * k ≤ 32)
    (hz : (z : Int) ≡ 2 * (y : Int) - (y : Int) * y * x [ZMOD (limbBase : Int)])
    (h : x * y ≡ 1 [MOD 2 ^ k]) :
    x * z ≡ 1 [MOD 2 ^ (2 * k)] := by
  rw [← Int.natCast_modEq_iff]
  rw [← Int.natCast_modEq_iff] at h
  push_cast at h ⊢
  have h1 : ((2 : Int) ^ k) ∣ 1 - (x : Int) * y := Int.ModEq.dvd h
  have hsq : ((2 : Int) ^ (2 * k)) ∣ (1 - (x : Int) * y) ^ 2 := by
    rw [two_mul, pow_add, sq]
    exact mul_dvd_mul h1 h1
  have hB : ((2 : Int) ^ (2 * k)) ∣ (limbBase : Int) := by
    have : (limbBase : Int) = 2 ^ 32 := by rw [limbBase_eq]; norm_num
    rw [this]
    exact pow_dvd_pow 2 hk
  have h2 : (x : Int) * z ≡ (x : Int) * (2 * y - (y : Int) * y * x)
      [ZMOD (2 : Int) ^ (2 * k)] :=
    ((hz.mul_left (x : Int)).of_dvd hB)
  have h3 : (x : Int) * (2 * y - (y : Int) * y * x) ≡ 1 [ZMOD (2 : Int) ^ (2 * k)] := by
    have hz0 : (1 - (x : Int) * y) ^ 2 ≡ 0 [ZMOD (2 : Int) ^ (2 * k)] :=
      Int.modEq_zero_iff_dvd.mpr hsq
    have hring : (x : Int) * (2 * y - (y : Int) * y * x)
        = 1 - (1 - (x : Int) * y) ^ 2 := by ring
    calc (x : Int) * (2 * y - (y : Int) * y * x)
        = 1 - (1 - (x : Int) * y) ^ 2 := hring
      _ ≡ 1 - 0 [ZMOD (2 : Int) ^ (2 * k)] := (Int.ModEq.refl 1).sub hz0
      _ = 1 := by ring
  exact h2.trans h3

/-- Correctness of the single-limb binary inverse: for odd `x`,
`x * limbs_modular_invert_limb x ≡ 1 (mod 2 ^ 32)`. -/
theorem limbs_modular_invert_limb_spec (x : Nat) (hx : x % 2 = 1) :
    x * limbs_modular_invert_limb x % limbBase = 1 := by
  unfold limbs_modular_invert_limb
  set inv0 := INVERT_LIMB_TABLE.getD (x / 2 % 2 ^ 7) 0 with hinv0
  set inv1 := wsub (inv0 * 2) (wmul (inv0 * inv0) x) with hinv1
  have h0 : x * inv0 ≡ 1 [MOD 2 ^ 8] := invert_table_seed hx
  have h1 : x * inv1 ≡ 1 [MOD 2 ^ 16] := by
    have hstep : x * inv1 ≡ 1 [MOD 2 ^ (2 * 8)] := by
      refine invert_newton_step (by norm_num) ?_ h0
      rw [hinv1]
      refine (wsub_int _ _).trans ?_
      have ha : ((inv0 * 2 : Nat) : Int) = 2 * (inv0 : Int) := by push_cast; ring
      have hb : ((wmul (inv0 * inv0) x : Nat) : Int)
          ≡ (inv0 : Int) * inv0 * x [ZMOD (limbBase : Int)] := by
        refine (wmul_int_modEq _ _).trans ?_
        push_cast
        rfl
      rw [ha]
      exact (Int.ModEq.refl _).sub hb
    simpa using hstep
  have h2 : x * wsub (inv1 * 2 % limbBase) (wmul (wmul inv1 inv1) x) ≡ 1 [MOD 2 ^ (2 * 16)] := by
    refine invert_newton_step (by norm_num) ?_ h1
    refine (wsub_int _ _).trans ?_
    have ha : ((inv1 * 2 % limbBase : Nat) : Int) ≡ 2 * (inv1 : Int)
        [ZMOD (limbBase : Int)] := by
      refine (int_natCast_mod_modEq _ _).trans ?_
      have : ((inv1 * 2 : Nat) : Int) = 2 * (inv1 : Int) := by push_cast; ring
      rw [this]
    have hb : ((wmul (wmul inv1 inv1) x : Nat) : Int)
        ≡ (inv1 : Int) * inv1 * x [ZMOD (limbBase : Int)] := by
      refine (wmul_int_modEq _ _).trans ?_
      exact ((wmul_int_modEq inv1 inv1).mul_right (x : Int))
    exact ha.sub hb
  have hfin : x * wsub (inv1 * 2 % limbBase) (wmul (wmul inv1 inv1) x) % 2 ^ 32 = 1 := by
    have := h2
    unfold Nat.ModEq at this
    norm_num at this
    exact this
  exact hfin

/-- C4: for every odd limb `x`, `x * limbs_modular_invert_limb(x) == 1`
modulo `2 ^ W` (`W = 32`); in particular
`limbs_modular_invert_limb(3) == 2863311531` and
`limbs_modular_invert_limb(1000000001) == 2211001857`. -/
theorem claim_C4_limbs_modular_invert_limb :
    (∀ x : Nat, x < limbBase → x % 2 = 1 →
        x * limbs_modular_invert_limb x % limbBase = 1)
      ∧ limbs_modular_invert_limb 3 = 2863311531
      ∧ limbs_modular_invert_limb 1000000001 = 2211001857 :=
  ⟨fun x _ hx => limbs_modular_invert_limb_spec x hx, by decide, by decide⟩

/-- Witness for C4 at the concrete odd limb `3`. -/
theorem claim_C4_witness :
    (3 < limbBase ∧ 3 % 2 = 1) ∧ 3 * limbs_modular_invert_limb 3 % limbBase = 1 :=
  ⟨⟨by decide, by decide⟩,
    claim_C4_limbs_modular_invert_limb.1 3 (by decide) (by decide)⟩

/-- C10: `limbs_modular_invert_limb` panics exactly on even input — the
parity check is the source's unconditional `assert!(x.odd())` (an `assert!`,
not a `debug_assert!`) — and for every odd `x` it returns normally (`some`). -/
theorem claim_C10_invert_limb_parity_panic :
    ∀ x : Nat, (limbs_modular_invert_limb_checked x = none ↔ x % 2 = 0)
      ∧ (x % 2 = 1 → limbs_modular_invert_limb_checked x
          = some (limbs_modular_invert_limb x)) := by
  intro x
  constructor
  · constructor
    · intro h
      by_contra hodd
      have hx : x % 2 = 1 := by omega
      simp [limbs_modular_invert_limb_checked, hx] at h
    · intro h
      have hx : ¬ x % 2 = 1 := by omega
      simp [limbs_modular_invert_limb_checked, hx]
  · intro hx
    simp [limbs_modular_invert_limb_checked, hx]

/-- Witness for C10 at the odd limb `3` and the even limb `4`. -/
theorem claim_C10_witness :
    (3 % 2 = 1 ∧ limbs_modular_invert_limb_checked 3
        = some (limbs_modular_invert_limb 3))
      ∧ (limbs_modular_invert_limb_checked 4 = none ↔ 4 % 2 = 0) :=
  ⟨⟨by decide, (claim_C10_invert_limb_parity_panic 3).2 (by decide)⟩,
    (claim_C10_invert_limb_parity_panic 4).1⟩

/-! ### Toom squaring input-size validity (`square.rs`)

The size-validity predicates for the Toom-k squaring routines, and the
guarding assertion of the Toom-2 routine (which has no separate predicate:
`_limbs_square_to_out_toom_2` begins with `assert!(xs_len > 1)` and its doc
states the smallest allowable length is 2). -/

/-- Guard of `_limbs_square_to_out_toom_2` (`assert!(xs_len > 1)`). -/
def _limbs_square_to_out_toom_2_input_size_ok (xs_len : Nat) : Bool :=
  xs_len > 1

/-- `_limbs_square_to_out_toom_3_input_size_valid` from `square.rs`. -/
def _limbs_square_to_out_toom_3_input_size_valid (xs_len : Nat) : Bool :=
  xs_len == 3 || xs_len > 4

/-- `_limbs_square_to_out_toom_4_input_size_valid` from `square.rs`. -/
def _limbs_square_to_out_toom_4_input_size_valid (xs_len : Nat) : Bool :=
  xs_len == 4 || xs_len == 7 || xs_len == 8 || xs_len > 9

/-- `_limbs_square_to_out_toom_6_input_size_valid` from `square.rs`. -/
def _limbs_square_to_out_toom_6_input_size_valid (xs_len : Nat) : Bool :=
  xs_len == 18 || xs_len > 21 && xs_len != 25 && xs_len != 26 && xs_len != 31

/-- `_limbs_square_to_out_toom_8_input_size_valid` from `square.rs`. -/
def _limbs_square_to_out_toom_8_input_size_valid (xs_len : Nat) : Bool :=
  xs_len == 40 || xs_len > 43 && xs_len != 49 && xs_len != 50 && xs_len != 57

/-- C7: the minimum valid input length of the Toom-k squaring routine is `k`
for `k ∈ {2, 3, 4}`, `18` for `k = 6` and `40` for `k = 8`: each
input-size-validity predicate holds at exactly that minimum and fails at
every smaller length. -/
theorem claim_C7_toom_minimum_input_sizes :
    (_limbs_square_to_out_toom_2_input_size_ok 2
      ∧ ∀ n, n < 2 → ¬ _limbs_square_to_out_toom_2_input_size_ok n)
    ∧ (_limbs_square_to_out_toom_3_input_size_valid 3
      ∧ ∀ n, n < 3 → ¬ _limbs_square_to_out_toom_3_input_size_valid n)
    ∧ (_limbs_square_to_out_toom_4_input_size_valid 4
      ∧ ∀ n, n < 4 → ¬ _limbs_square_to_out_toom_4_input_size_valid n)
    ∧ (_limbs_square_to_out_toom_6_input_size_valid 18
      ∧ ∀ n, n < 18 → ¬ _limbs_square_to_out_toom_6_input_size_valid n)
    ∧ (_limbs_square_to_out_toom_8_input_size_valid 40
      ∧ ∀ n, n < 40 → ¬ _limbs_square_to_out_toom_8_input_size_valid n) := by
  refine ⟨⟨by decide, ?_⟩, ⟨by decide, ?_⟩, ⟨by decide, ?_⟩, ⟨by decide, ?_⟩,
    ⟨by decide, ?_⟩⟩ <;> decide

/-! ### Exact division by 3 (`div_exact.rs`) -/

/-- `MAX_OVER_3` from `div_exact.rs`: `Limb::MAX / 3`. -/
def MAX_OVER_3 : Nat := (limbBase - 1) / 3

/-- Modelled from the spec: `limbs_div_divisor_of_limb_max_with_carry_to_out`
(malachite-nz `natural::arithmetic::div`, a basic limb primitive consumed by
the divide-by-3 routine of §4.2 but not present under `src/`).  Per the
source's reference it is `mpn_bdiv_dbm1c` from GMP 6.1.2: for each limb `n`
it forms the double-limb product `n * d`, subtracts its low half from the
running carry with wraparound (recording the quotient limb), then subtracts
the high half and the inner borrow from the carry.  Returns the written limbs
together with the final carry. -/
def limbs_div_divisor_of_limb_max_with_carry_to_out (ns : List Nat) (d carry : Nat) :
    List Nat × Nat :=
  match ns with
  | [] => ([], carry)
  | n :: rest =>
      let p := n * d
      let lo := p % limbBase
      let hi := p / limbBase
      let inner_carry := carry % limbBase < lo
      let q := wsub carry lo
      let carry1 := wsub q hi
      let carry2 := if inner_carry then wsub carry1 1 else carry1
      let (qs, c) := limbs_div_divisor_of_limb_max_with_carry_to_out rest d carry2
      (q :: qs, c)

/-- `limbs_div_exact_3_to_out` from `div_exact.rs`: writes the quotient of the
(exactly divisible) input by 3 over the first `ns.length` limbs of `out`,
leaving the rest of `out` unchanged. -/
def limbs_div_exact_3_to_out (out ns : List Nat) : List Nat :=
  let ns_init := ns.dropLast
  let ns_last := (ns.getLast?).getD 0
  let qc := limbs_div_divisor_of_limb_max_with_carry_to_out ns_init MAX_OVER_3 0
  let lower := ns_last * MAX_OVER_3 % limbBase
  qc.1 ++ [wsub qc.2 lower] ++ out.drop ns.length

/-- `limbs_div_exact_3` from `div_exact.rs`: `let mut q = vec![0; ns.len()];
limbs_div_exact_3_to_out(&mut q, ns); q`. -/
def limbs_div_exact_3 (ns : List Nat) : List Nat :=
  limbs_div_exact_3_to_out (List.replicate ns.length 0) ns

/-- C8: with 32-bit limbs, `limbs_div_exact_3(&[8, 7]) == [1431655768, 2]`
(the two-limb value `7 * 2^32 + 8` divided exactly by 3). -/
theorem claim_C8_div_exact_3_concrete :
    limbs_div_exact_3 [8, 7] = [1431655768, 2] := by decide

/-! ### The squaring wrapper (`square.rs`) -/

/-- Modelled from the spec:
`limbs_slice_add_mul_limb_same_length_in_place_left`
(`natural::arithmetic::add_mul`, not under `src/`; spec §6's
addition-with-multiply limb primitive): replaces `xs` (length `len`) by
`(xs + ys * y) mod B ^ len` and returns the carry `(xs + ys * y) / B ^ len`,
where `ys` has the same length as `xs`. -/
def limbs_slice_add_mul_limb_same_length_in_place_left (xs ys : List Nat) (y : Nat) :
    List Nat × Nat :=
  let t := limbsVal xs + limbsVal ys * y
  (natToLimbs t xs.length, t / limbBase ^ xs.length)

/-- Modelled from the spec: `limbs_slice_add_limb_in_place`
(`natural::arithmetic::add`, not under `src/`; spec §6's add-with-carry limb
primitive): replaces `xs` by `(xs + y) mod B ^ len`, returning whether the
addition overflowed out of the slice. -/
def limbs_slice_add_limb_in_place (xs : List Nat) (y : Nat) : List Nat × Bool :=
  let t := limbsVal xs + y
  (natToLimbs t xs.length, decide (limbBase ^ xs.length ≤ t))

/-- The 32-bit bitwise complement `!q` used to negate stored quotient limbs. -/
def limbNot (q : Nat) : Nat := limbBase - 1 - q % limbBase

theorem limbNot_lt (q : Nat) : limbNot q < limbBase := by
  unfold limbNot
  have := limbBase_pos
  omega

/-- The two quotient-limb loops of `_limbs_modular_div_schoolbook`, one
recursive step per produced quotient limb.  While more than `ds.length` limbs
of N remain (the source's `for i in 0..diff` loop) the window is
`ns[i..i + d_len]` with the carry propagated into the higher limbs; afterwards
(the `for i in diff..last_index` loop) the window is all of the remaining N
against a truncated divisor; the last remaining limb (`qs[last_index]`)
closes the recursion.  The leading limb of the updated window is always zero
(the source's `assert_eq!(ns_lo[0], 0)`, a consequence of
`d_inv * ds[0] ≡ -1`), so each step drops it and recurses on a list one limb
shorter.  An empty divisor panics in the source (`assert_ne!(d_len, 0)`); the
embedding returns `[]` in that unreachable case. -/
def _limbs_modular_div_schoolbook_loop (ns ds : List Nat) (d_inv : Nat) : List Nat :=
  match ns, ds with
  | _, [] => []
  | [], _ => []
  | [n0], _ :: _ => [limbNot (wmul d_inv n0)]
  | n0 :: n1 :: nrest, d0 :: drest =>
      let ns := n0 :: n1 :: nrest
      let ds := d0 :: drest
      let q := wmul d_inv n0
      if ns.length > ds.length then
        let am := limbs_slice_add_mul_limb_same_length_in_place_left
          (ns.take ds.length) ds q
        let hi := (limbs_slice_add_limb_in_place (ns.drop ds.length) am.2).1
        limbNot q :: _limbs_modular_div_schoolbook_loop (am.1.tail ++ hi) ds d_inv
      else
        let am := limbs_slice_add_mul_limb_same_length_in_place_left ns (ds.take ns.length) q
        limbNot q :: _limbs_modular_div_schoolbook_loop am.1.tail ds d_inv
  termination_by ns.length
  decreasing_by
  · simp [limbs_slice_add_mul_limb_same_length_in_place_left,
      limbs_slice_add_limb_in_place]
    omega
  · simp [limbs_slice_add_mul_limb_same_length_in_place_left]

/-- `_limbs_modular_div_schoolbook` from `div_exact.rs`
(`mpn_sbpi1_bdiv_q` from GMP 6.1.2): the quotient-limb loops followed by the
final `limbs_slice_add_limb_in_place(qs, 1)` that completes the negation
`-Q = !Q + 1`. -/
def _limbs_modular_div_schoolbook (ns ds : List Nat) (d_inv : Nat) : List Nat :=
  (limbs_slice_add_limb_in_place (_limbs_modular_div_schoolbook_loop ns ds d_inv) 1).1

theorem _limbs_modular_div_schoolbook_loop_length :
    ∀ (n : Nat) (ns ds : List Nat) (d_inv : Nat), ns.length = n → ds ≠ [] →
      (_limbs_modular_div_schoolbook_loop ns ds d_inv).length = ns.length := by
  intro n
  induction n using Nat.strong_induction_on with
  | _ n ih =>
    intro ns ds d_inv hn hds
    rcases ds with _ | ⟨d0, drest⟩
    · exact absurd rfl hds
    rcases ns with _ | ⟨n0, _ | ⟨n1, nrest⟩⟩
    · rw [_limbs_modular_div_schoolbook_loop]
      simp
    · rw [_limbs_modular_div_schoolbook_loop]
      rfl
    · rw [_limbs_modular_div_schoolbook_loop]
      by_cases hgt : (n0 :: n1 :: nrest).length > (d0 :: drest).length
      · rw [if_pos hgt]
        simp only [List.length_cons] at hgt ⊢
        set am := limbs_slice_add_mul_limb_same_length_in_place_left
          (List.take (drest.length + 1) (n0 :: n1 :: nrest)) (d0 :: drest)
          (wmul d_inv n0) with ham
        set hi := (limbs_slice_add_limb_in_place
          (List.drop (drest.length + 1) (n0 :: n1 :: nrest)) am.2).1 with hhi
        have harg : (am.1.tail ++ hi).length = nrest.length + 1 := by
          rw [ham, hhi]
          simp only [limbs_slice_add_mul_limb_same_length_in_place_left,
            limbs_slice_add_limb_in_place, List.length_append, List.length_tail,
            length_natToLimbs, List.length_take, List.length_drop, List.length_cons]
          omega
        have hrec := ih (nrest.length + 1)
          (by simp only [List.length_cons] at hn; omega) _ (d0 :: drest) d_inv harg (by simp)
        rw [hrec, harg]
      · rw [if_neg hgt]
        simp only [List.length_cons] at hgt ⊢
        set am := limbs_slice_add_mul_limb_same_length_in_place_left (n0 :: n1 :: nrest)
          (List.take (nrest.length + 1 + 1) (d0 :: drest)) (wmul d_inv n0) with ham
        have harg : am.1.tail.length = nrest.length + 1 := by
          rw [ham]
          simp only [limbs_slice_add_mul_limb_same_length_in_place_left,
            List.length_tail, length_natToLimbs, List.length_cons]
          omega
        have hrec := ih (nrest.length + 1)
          (by simp only [List.length_cons] at hn; omega) _ (d0 :: drest) d_inv harg (by simp)
        rw [hrec, harg]

theorem _limbs_modular_div_schoolbook_loop_lt :
    ∀ (n : Nat) (ns ds : List Nat) (d_inv : Nat), ns.length = n →
      ∀ x ∈ _limbs_modular_div_schoolbook_loop ns ds d_inv, x < limbBase := by
  intro n
  induction n using Nat.strong_induction_on with
  | _ n ih =>
    intro ns ds d_inv hn
    rcases ds with _ | ⟨d0, drest⟩
    · rw [_limbs_modular_div_schoolbook_loop]
      simp
    rcases ns with _ | ⟨n0, _ | ⟨n1, nrest⟩⟩
    · rw [_limbs_modular_div_schoolbook_loop]
      all_goals simp
    · rw [_limbs_modular_div_schoolbook_loop]
      intro x hx
      simp only [List.mem_singleton] at hx
      exact hx ▸ limbNot_lt _
    · rw [_limbs_modular_div_schoolbook_loop]
      by_cases hgt : (n0 :: n1 :: nrest).length > (d0 :: drest).length
      · rw [if_pos hgt]
        intro x hx
        rcases List.mem_cons.mp hx with h | h
        · exact h ▸ limbNot_lt _
        · refine ih (nrest.length + 1)
            (by simp only [List.length_cons] at hn; omega) _ (d0 :: drest) d_inv ?_ x h
          simp only [limbs_slice_add_mul_limb_same_length_in_place_left,
            limbs_slice_add_limb_in_place, List.length_append, List.length_tail,
            length_natToLimbs, List.length_take, List.length_drop, List.length_cons]
          simp only [List.length_cons] at hgt
          omega
      · rw [if_neg hgt]
        intro x hx
        rcases List.mem_cons.mp hx with h | h
        · exact h ▸ limbNot_lt _
        · refine ih (nrest.length + 1)
            (by simp only [List.length_cons] at hn; omega) _ (d0 :: drest) d_inv ?_ x h
          simp only [limbs_slice_add_mul_limb_same_length_in_place_left,
            List.length_tail, length_natToLimbs, List.length_cons]
          omega

/-- After one schoolbook step, the head limb of the updated window vanishes:
`(-D)⁻¹ · n0` is exactly the quotient digit cancelling `n0`. -/
theorem schoolbook_head_zero (d_inv n0 d0 a b : Nat)
    (hinv : (d_inv * d0 + 1) % limbBase = 0) :
    (n0 + limbBase * a + (d0 + limbBase * b) * wmul d_inv n0) % limbBase = 0 := by
  have hdvd : limbBase ∣ d_inv * d0 + 1 := Nat.dvd_of_mod_eq_zero hinv
  have h1 : n0 + limbBase * a + (d0 + limbBase * b) * wmul d_inv n0
      ≡ n0 + d0 * wmul d_inv n0 [MOD limbBase] := by
    have hre : n0 + limbBase * a + (d0 + limbBase * b) * wmul d_inv n0
        = n0 + d0 * wmul d_inv n0 + limbBase * (a + b * wmul d_inv n0) := by ring
    rw [hre]
    unfold Nat.ModEq
    rw [mul_comm limbBase (a + b * wmul d_inv n0), Nat.add_mul_mod_self_right]
  have h2 : n0 + d0 * wmul d_inv n0 ≡ n0 + d0 * (d_inv * n0) [MOD limbBase] :=
    Nat.ModEq.add_left _ ((wmul_int d_inv n0).mul_left d0)
  have h3 : n0 + d0 * (d_inv * n0) ≡ 0 [MOD limbBase] := by
    have hre : n0 + d0 * (d_inv * n0) = n0 * (d_inv * d0 + 1) := by ring
    rw [hre]
    exact (Nat.modEq_zero_iff_dvd).mpr (Dvd.dvd.mul_left hdvd n0)
  have hfin := (h1.trans h2).trans h3
  simpa [Nat.ModEq] using hfin

/-- With a zero head limb, prepending the stripped head is multiplication by
the base: `B * limbsVal (natToLimbs t (d + 1)).tail = t % B ^ (d + 1)`. -/
theorem mul_limbsVal_tail (t d : Nat) (ht : t % limbBase = 0) :
    limbBase * limbsVal ((natToLimbs t (d + 1)).tail) = t % limbBase ^ (d + 1) := by
  rw [natToLimbs_succ]
  simp only [List.tail_cons, limbsVal_natToLimbs]
  have hsplit : limbBase * (t / limbBase) = t := by
    rw [mul_comm]
    exact Nat.div_mul_cancel (Nat.dvd_of_mod_eq_zero ht)
  calc limbBase * (t / limbBase % limbBase ^ d)
      = limbBase * (t / limbBase) % (limbBase * limbBase ^ d) := by
        rw [Nat.mul_mod_mul_left]
    _ = t % limbBase ^ (d + 1) := by
        rw [hsplit, pow_succ, mul_comm (limbBase ^ d) limbBase]

/-- Value of the recursive argument in the wide-window (`m > d`) schoolbook
step: scaling by the base, it is `N + D * q` modulo `B ^ m`. -/
theorem schoolbook_step_value_gt (ns ds : List Nat) (q : Nat)
    (hd : ds ≠ []) (hgt : ds.length < ns.length)
    (ht0 : (limbsVal (ns.take ds.length) + limbsVal ds * q) % limbBase = 0) :
    (limbBase * limbsVal
        ((natToLimbs (limbsVal (ns.take ds.length) + limbsVal ds * q) ds.length).tail
          ++ natToLimbs
              (limbsVal (ns.drop ds.length)
                + (limbsVal (ns.take ds.length) + limbsVal ds * q) / limbBase ^ ds.length)
              (ns.length - ds.length)))
      % limbBase ^ ns.length
      = (limbsVal ns + limbsVal ds * q) % limbBase ^ ns.length := by
  rcases ds with _ | ⟨d0, drest⟩
  · exact absurd rfl hd
  set d := (d0 :: drest).length with hdlen
  set t := limbsVal (ns.take d) + limbsVal (d0 :: drest) * q with htdef
  set m := ns.length with hm
  have hdm : d ≤ m := le_of_lt hgt
  have hd1 : d = drest.length + 1 := by simp [hdlen]
  -- length facts
  have htail_len : ((natToLimbs t d).tail).length = drest.length := by
    simp [hd1]
  -- value of the appended list
  have happ : limbsVal ((natToLimbs t d).tail
        ++ natToLimbs (limbsVal (ns.drop d) + t / limbBase ^ d) (m - d))
      = limbsVal ((natToLimbs t d).tail)
        + limbBase ^ drest.length
          * ((limbsVal (ns.drop d) + t / limbBase ^ d) % limbBase ^ (m - d)) := by
    rw [limbsVal_append, htail_len, limbsVal_natToLimbs]
  rw [happ]
  rw [Nat.mul_add]
  have h1 : limbBase * limbsVal ((natToLimbs t d).tail) = t % limbBase ^ d := by
    rw [hd1]
    exact mul_limbsVal_tail t drest.length ht0
  rw [h1]
  have hpow : limbBase * limbBase ^ drest.length = limbBase ^ d := by
    rw [hd1, pow_succ, mul_comm]
  rw [← Nat.mul_assoc, hpow]
  -- now goal: (t % B^d + B^d * ((lvdrop + t / B^d) % B^(m-d))) % B^m = (lv ns + lv ds * q) % B^m
  have hmod : t % limbBase ^ d + limbBase ^ d
        * ((limbsVal (ns.drop d) + t / limbBase ^ d) % limbBase ^ (m - d))
      ≡ t % limbBase ^ d + limbBase ^ d
        * (limbsVal (ns.drop d) + t / limbBase ^ d) [MOD limbBase ^ m] := by
    refine Nat.ModEq.add_left _ ?_
    have hmm : limbBase ^ d * limbBase ^ (m - d) = limbBase ^ m := by
      rw [← pow_add]
      congr 1
      omega
    have := (Nat.mod_modEq (limbsVal (ns.drop d) + t / limbBase ^ d)
      (limbBase ^ (m - d))).mul_left' (c := limbBase ^ d)
    rw [hmm] at this
    exact this
  have hval : t % limbBase ^ d + limbBase ^ d * (limbsVal (ns.drop d) + t / limbBase ^ d)
      = limbsVal ns + limbsVal (d0 :: drest) * q := by
    have hsplit : limbsVal ns
        = limbsVal (ns.take d) + limbBase ^ d * limbsVal (ns.drop d) := by
      conv_lhs => rw [← List.take_append_drop d ns]
      rw [limbsVal_append, List.length_take, Nat.min_eq_left hdm]
    have hmd : t % limbBase ^ d + limbBase ^ d * (t / limbBase ^ d) = t :=
      Nat.mod_add_div t (limbBase ^ d)
    calc t % limbBase ^ d + limbBase ^ d * (limbsVal (ns.drop d) + t / limbBase ^ d)
        = (t % limbBase ^ d + limbBase ^ d * (t / limbBase ^ d))
            + limbBase ^ d * limbsVal (ns.drop d) := by ring
      _ = t + limbBase ^ d * limbsVal (ns.drop d) := by rw [hmd]
      _ = limbsVal (ns.take d) + limbBase ^ d * limbsVal (ns.drop d)
            + limbsVal (d0 :: drest) * q := by rw [htdef]; ring
      _ = limbsVal ns + limbsVal (d0 :: drest) * q := by rw [hsplit]
  calc (t % limbBase ^ d + limbBase ^ d
        * ((limbsVal (ns.drop d) + t / limbBase ^ d) % limbBase ^ (m - d)))
        % limbBase ^ m
      = (t % limbBase ^ d + limbBase ^ d
          * (limbsVal (ns.drop d) + t / limbBase ^ d)) % limbBase ^ m := hmod
    _ = (limbsVal ns + limbsVal (d0 :: drest) * q) % limbBase ^ m := by rw [hval]

/-- Value of the recursive argument in the truncated-window (`m ≤ d`)
schoolbook step: scaling by the base, it is `N + D * q` modulo `B ^ m`. -/
theorem schoolbook_step_value_le (ns ds : List Nat) (q : Nat)
    (h1 : ns ≠ []) (hle : ns.length ≤ ds.length)
    (ht0 : (limbsVal ns + limbsVal (ds.take ns.length) * q) % limbBase = 0) :
    (limbBase * limbsVal
        ((natToLimbs (limbsVal ns + limbsVal (ds.take ns.length) * q) ns.length).tail))
      % limbBase ^ ns.length
      = (limbsVal ns + limbsVal ds * q) % limbBase ^ ns.length := by
  rcases ns with _ | ⟨n0, nrest⟩
  · exact absurd rfl h1
  set m := (n0 :: nrest).length with hm
  set t := limbsVal (n0 :: nrest) + limbsVal (ds.take m) * q with htdef
  have hm1 : m = nrest.length + 1 := by simp [hm]
  have htail : limbBase * limbsVal ((natToLimbs t m).tail) = t % limbBase ^ m := by
    rw [hm1]
    exact mul_limbsVal_tail t nrest.length ht0
  rw [htail]
  have hds : limbsVal ds = limbsVal (ds.take m) + limbBase ^ m * limbsVal (ds.drop m) := by
    conv_lhs => rw [← List.take_append_drop m ds]
    rw [limbsVal_append, List.length_take, Nat.min_eq_left hle]
  rw [Nat.mod_mod_of_dvd _ dvd_rfl]
  have : limbsVal (n0 :: nrest) + limbsVal ds * q
      ≡ t [MOD limbBase ^ m] := by
    rw [hds, htdef]
    have hre : limbsVal (n0 :: nrest)
          + (limbsVal (ds.take m) + limbBase ^ m * limbsVal (ds.drop m)) * q
        = limbsVal (n0 :: nrest) + limbsVal (ds.take m) * q
          + limbBase ^ m * (limbsVal (ds.drop m) * q) := by ring
    rw [hre]
    unfold Nat.ModEq
    rw [mul_comm (limbBase ^ m) (limbsVal (ds.drop m) * q), Nat.add_mul_mod_self_right]
  exact this.symm

theorem limbNot_cast (q : Nat) (hq : q < limbBase) :
    ((limbNot q : Nat) : Int) = (limbBase : Int) - 1 - q := by
  unfold limbNot
  rw [Nat.mod_eq_of_lt hq]
  have h1 : q ≤ limbBase - 1 := by omega
  have h2 : (1 : Nat) ≤ limbBase := le_of_lt one_lt_limbBase
  rw [Nat.cast_sub h1, Nat.cast_sub h2]
  push_cast
  ring

/-- The loop invariant of the schoolbook binary division, stated over the
integers: writing `Q'` for the bitwise complement of the limbs produced so
far, `N + Q' * D ≡ 0 (mod B ^ ns.len())`. -/
theorem _limbs_modular_div_schoolbook_loop_spec :
    ∀ (n : Nat) (ns ds : List Nat) (d_inv : Nat), ns.length = n → ds ≠ [] →
      (d_inv * ds.headD 0 + 1) % limbBase = 0 →
      ((limbBase : Int) ^ ns.length)
        ∣ ((limbsVal ns : Int)
            + ((limbBase : Int) ^ ns.length - 1
                - (limbsVal (_limbs_modular_div_schoolbook_loop ns ds d_inv) : Int))
              * (limbsVal ds : Int)) := by
  intro n
  induction n using Nat.strong_induction_on with
  | _ n ih =>
    intro ns ds d_inv hn hds hinv
    rcases ds with _ | ⟨d0, drest⟩
    · exact absurd rfl hds
    have hinv0 : (d_inv * d0 + 1) % limbBase = 0 := by simpa using hinv
    rcases ns with _ | ⟨n0, _ | ⟨n1, nrest⟩⟩
    · rw [_limbs_modular_div_schoolbook_loop]
      · simp
      · simp
    · rw [_limbs_modular_div_schoolbook_loop]
      have hq : wmul d_inv n0 < limbBase := Nat.mod_lt _ limbBase_pos
      have hzN := schoolbook_head_zero d_inv n0 d0 0 (limbsVal drest) hinv0
      have hzI : (limbBase : Int)
          ∣ ((n0 : Int) + ((d0 : Int) + limbBase * limbsVal drest) * wmul d_inv n0) := by
        have hcast := Int.natCast_dvd_natCast.mpr (Nat.dvd_of_mod_eq_zero hzN)
        push_cast at hcast
        convert hcast using 1
      simp only [List.length_singleton, pow_one, limbsVal_cons, limbsVal_nil]
      push_cast
      rw [limbNot_cast _ hq]
      convert hzI using 1
      ring
    · rw [_limbs_modular_div_schoolbook_loop]
      by_cases hgt : (n0 :: n1 :: nrest).length > (d0 :: drest).length
      · rw [if_pos hgt]
        simp only [List.length_cons] at hgt ⊢
        simp only [limbs_slice_add_mul_limb_same_length_in_place_left,
          limbs_slice_add_limb_in_place, List.length_cons]
        have hlt : (List.take (drest.length + 1) (n0 :: n1 :: nrest)).length
            = drest.length + 1 := by
          rw [List.length_take]
          simp only [List.length_cons]
          omega
        have hld : (List.drop (drest.length + 1) (n0 :: n1 :: nrest)).length
            = nrest.length + 1 + 1 - (drest.length + 1) := by
          rw [List.length_drop]
          simp only [List.length_cons]
        rw [hlt, hld]
        set q := wmul d_inv n0 with hqdef
        have hq : q < limbBase := Nat.mod_lt _ limbBase_pos
        set t := limbsVal (List.take (drest.length + 1) (n0 :: n1 :: nrest))
          + limbsVal (d0 :: drest) * q with htdef
        set X := (natToLimbs t (drest.length + 1)).tail
          ++ natToLimbs
              (limbsVal (List.drop (drest.length + 1) (n0 :: n1 :: nrest))
                + t / limbBase ^ (drest.length + 1))
              (nrest.length + 1 + 1 - (drest.length + 1)) with hXdef
        have ht0 : t % limbBase = 0 := by
          rw [htdef, List.take_succ_cons, limbsVal_cons, limbsVal_cons]
          exact schoolbook_head_zero d_inv n0 d0 _ _ hinv0
        have hstep := schoolbook_step_value_gt (n0 :: n1 :: nrest) (d0 :: drest) q
          (by simp) (by simp only [List.length_cons]; omega) (by
            simp only [List.length_cons]
            exact ht0)
        simp only [List.length_cons] at hstep
        have hstepME : Nat.ModEq (limbBase ^ (nrest.length + 1 + 1))
            (limbBase * limbsVal X)
            (limbsVal (n0 :: n1 :: nrest) + limbsVal (d0 :: drest) * q) := by
          rw [hXdef]
          exact hstep
        have hstepI : ((limbBase : Int) ^ (nrest.length + 1 + 1))
            ∣ (((limbsVal (n0 :: n1 :: nrest) : Int)
                + (limbsVal (d0 :: drest) : Int) * q)
              - (limbBase : Int) * limbsVal X) := by
          have hcast := (Int.natCast_modEq_iff).mpr hstepME
          have hdvd := hcast.dvd
          push_cast at hdvd
          convert hdvd using 1
        have hXlen : X.length = nrest.length + 1 := by
          rw [hXdef]
          simp only [List.length_append, List.length_tail, length_natToLimbs]
          omega
        have ihX := ih (nrest.length + 1)
          (by simp only [List.length_cons] at hn; omega) X (d0 :: drest) d_inv hXlen
          (by simp) hinv
        rw [hXlen] at ihX
        have hlvcons : ((limbsVal (limbNot q
              :: _limbs_modular_div_schoolbook_loop X (d0 :: drest) d_inv) : Nat) : Int)
            = (limbBase : Int) - 1 - q
              + limbBase
                * limbsVal (_limbs_modular_div_schoolbook_loop X (d0 :: drest) d_inv) := by
          rw [limbsVal_cons]
          push_cast
          rw [limbNot_cast _ hq]
        have hmul := mul_dvd_mul_left (limbBase : Int) ihX
        rw [show ((limbBase : Int) * (limbBase : Int) ^ (nrest.length + 1))
            = (limbBase : Int) ^ (nrest.length + 1 + 1) from by ring] at hmul
        have hsum := dvd_add hstepI hmul
        convert hsum using 1
        rw [hlvcons]
        ring
      · rw [if_neg hgt]
        simp only [List.length_cons] at hgt ⊢
        simp only [limbs_slice_add_mul_limb_same_length_in_place_left,
          List.length_cons]
        set q := wmul d_inv n0 with hqdef
        have hq : q < limbBase := Nat.mod_lt _ limbBase_pos
        set t := limbsVal (n0 :: n1 :: nrest)
          + limbsVal (List.take (nrest.length + 1 + 1) (d0 :: drest)) * q with htdef
        set X := (natToLimbs t (nrest.length + 1 + 1)).tail with hXdef
        have ht0 : t % limbBase = 0 := by
          rw [htdef, List.take_succ_cons, limbsVal_cons, limbsVal_cons]
          exact schoolbook_head_zero d_inv n0 d0 _ _ hinv0
        have hstep := schoolbook_step_value_le (n0 :: n1 :: nrest) (d0 :: drest) q
          (by simp) (by simp only [List.length_cons]; omega) (by
            simp only [List.length_cons]
            exact ht0)
        simp only [List.length_cons] at hstep
        have hstepME : Nat.ModEq (limbBase ^ (nrest.length + 1 + 1))
            (limbBase * limbsVal X)
            (limbsVal (n0 :: n1 :: nrest) + limbsVal (d0 :: drest) * q) := by
          rw [hXdef]
          exact hstep
        have hstepI : ((limbBase : Int) ^ (nrest.length + 1 + 1))
            ∣ (((limbsVal (n0 :: n1 :: nrest) : Int)
                + (limbsVal (d0 :: drest) : Int) * q)
              - (limbBase : Int) * limbsVal X) := by
          have hcast := (Int.natCast_modEq_iff).mpr hstepME
          have hdvd := hcast.dvd
          push_cast at hdvd
          convert hdvd using 1
        have hXlen : X.length = nrest.length + 1 := by
          rw [hXdef]
          simp only [List.length_tail, length_natToLimbs]
          omega
        have ihX := ih (nrest.length + 1)
          (by simp only [List.length_cons] at hn; omega) X (d0 :: drest) d_inv hXlen
          (by simp) hinv
        rw [hXlen] at ihX
        have hlvcons : ((limbsVal (limbNot q
              :: _limbs_modular_div_schoolbook_loop X (d0 :: drest) d_inv) : Nat) : Int)
            = (limbBase : Int) - 1 - q
              + limbBase
                * limbsVal (_limbs_modular_div_schoolbook_loop X (d0 :: drest) d_inv) := by
          rw [limbsVal_cons]
          push_cast
          rw [limbNot_cast _ hq]
        have hmul := mul_dvd_mul_left (limbBase : Int) ihX
        rw [show ((limbBase : Int) * (limbBase : Int) ^ (nrest.length + 1))
            = (limbBase : Int) ^ (nrest.length + 1 + 1) from by ring] at hmul
        have hsum := dvd_add hstepI hmul
        convert hsum using 1
        rw [hlvcons]
        ring

/-- Correctness of `_limbs_modular_div_schoolbook`: with
`d_inv * ds[0] ≡ -1 (mod B)`, the written quotient `Q` satisfies
`Q * D ≡ N (mod B ^ ns.len())`. -/
theorem _limbs_modular_div_schoolbook_spec (ns ds : List Nat) (d_inv : Nat)
    (hds : ds ≠ []) (hinv : (d_inv * ds.headD 0 + 1) % limbBase = 0) :
    limbsVal (_limbs_modular_div_schoolbook ns ds d_inv) * limbsVal ds
      ≡ limbsVal ns [MOD limbBase ^ ns.length] := by
  unfold _limbs_modular_div_schoolbook
  set out := _limbs_modular_div_schoolbook_loop ns ds d_inv with hout
  have hlen : out.length = ns.length :=
    _limbs_modular_div_schoolbook_loop_length ns.length ns ds d_inv rfl hds
  have hlt : ∀ x ∈ out, x < limbBase :=
    _limbs_modular_div_schoolbook_loop_lt ns.length ns ds d_inv rfl
  have hvalout : limbsVal out < limbBase ^ ns.length := by
    have := limbsVal_lt out hlt
    rwa [hlen] at this
  have hdvd := _limbs_modular_div_schoolbook_loop_spec ns.length ns ds d_inv rfl hds hinv
  rw [← hout] at hdvd
  simp only [limbs_slice_add_limb_in_place]
  rw [hlen, limbsVal_natToLimbs]
  rw [← Int.natCast_modEq_iff]
  push_cast
  have h1 : ((limbsVal out : Int) + 1) % (limbBase : Int) ^ ns.length
      ≡ (limbsVal out : Int) + 1 [ZMOD (limbBase : Int) ^ ns.length] :=
    Int.emod_emod_of_dvd _ dvd_rfl
  refine (h1.mul_right _).trans ?_
  rw [Int.modEq_iff_dvd]
  have hre : (limbsVal ns : Int) - ((limbsVal out : Int) + 1) * limbsVal ds
      = ((limbsVal ns : Int)
          + ((limbBase : Int) ^ ns.length - 1 - limbsVal out) * limbsVal ds)
        - (limbBase : Int) ^ ns.length * limbsVal ds := by ring
  rw [hre]
  exact dvd_sub hdvd (dvd_mul_right _ _)

/-- `wrapping_neg` of the single-limb inverse satisfies
`d_inv * d0 ≡ -1 (mod B)`. -/
theorem neg_invert_limb_hyp (d0 : Nat) (hodd : d0 % 2 = 1) :
    ((limbBase - limbs_modular_invert_limb d0) % limbBase * d0 + 1) % limbBase = 0 := by
  have hspec : d0 * limbs_modular_invert_limb d0 % limbBase = 1 :=
    limbs_modular_invert_limb_spec d0 hodd
  set i := limbs_modular_invert_limb d0 with hi
  have hilt : i ≤ limbBase := by
    rw [hi]
    unfold limbs_modular_invert_limb wsub
    exact le_of_lt (Nat.mod_lt _ limbBase_pos)
  have hIdvd : (limbBase : Int) ∣ ((limbBase - i) % limbBase * d0 + 1 : Nat) := by
    have h1 : (((limbBase - i) % limbBase : Nat) : Int)
        ≡ ((limbBase : Nat) : Int) - i [ZMOD (limbBase : Int)] := by
      have := int_natCast_mod_modEq (limbBase - i) limbBase
      rwa [Nat.cast_sub hilt] at this
    have h2 : ((limbBase : Nat) : Int) - (i : Int) ≡ 0 - i [ZMOD (limbBase : Int)] := by
      refine Int.ModEq.sub ?_ (Int.ModEq.refl _)
      unfold Int.ModEq
      simp
    have h3 : (((limbBase - i) % limbBase * d0 + 1 : Nat) : Int)
        ≡ (0 - i) * d0 + 1 [ZMOD (limbBase : Int)] := by
      push_cast
      exact ((h1.trans h2).mul_right _).add_right _
    have h4 : ((0 : Int) - i) * d0 + 1 ≡ 0 [ZMOD (limbBase : Int)] := by
      have hspecI : ((d0 * i : Nat) : Int) ≡ ((1 : Nat) : Int) [ZMOD (limbBase : Int)] := by
        rw [Int.natCast_modEq_iff]
        unfold Nat.ModEq
        rw [hspec, Nat.mod_eq_of_lt one_lt_limbBase]
      push_cast at hspecI
      calc ((0 : Int) - i) * d0 + 1 = -(d0 * i) + 1 := by ring
        _ ≡ -1 + 1 [ZMOD (limbBase : Int)] := (hspecI.neg).add_right 1
        _ = 0 := by ring
    have := h3.trans h4
    exact (Int.modEq_zero_iff_dvd).mp this
  have hnat := Int.natCast_dvd_natCast.mp hIdvd
  have h0 : ((limbBase - limbs_modular_invert_limb d0) % limbBase * d0 + 1)
      ≡ 0 [MOD limbBase] := (Nat.modEq_zero_iff_dvd).mpr hnat
  simpa [Nat.ModEq] using h0

/-- C5: for every divisor sequence `ds` with odd least-significant limb and
every `ns` at least as long, with
`d_inv = limbs_modular_invert_limb(ds[0]).wrapping_neg()`, the schoolbook
binary division writes a quotient `Q` of `ns.len()` limbs with
`Q * D ≡ N (mod B ^ ns.len())` — the negated-quotient scheme computes the
Hensel quotient of `N` by `D`. -/
theorem claim_C5_modular_div_schoolbook (ns ds : List Nat)
    (hds : ds ≠ []) (hlen : ds.length ≤ ns.length) (hodd : ds.headD 0 % 2 = 1)
    (hdlimb : ∀ x ∈ ds, x < limbBase) :
    (_limbs_modular_div_schoolbook ns ds
        ((limbBase - limbs_modular_invert_limb (ds.headD 0)) % limbBase)).length
      = ns.length
    ∧ limbsVal (_limbs_modular_div_schoolbook ns ds
          ((limbBase - limbs_modular_invert_limb (ds.headD 0)) % limbBase))
        * limbsVal ds
      ≡ limbsVal ns [MOD limbBase ^ ns.length] := by
  have hinv := neg_invert_limb_hyp (ds.headD 0) hodd
  constructor
  · unfold _limbs_modular_div_schoolbook
    simp only [limbs_slice_add_limb_in_place, length_natToLimbs]
    exact _limbs_modular_div_schoolbook_loop_length ns.length ns ds _ rfl hds
  · exact _limbs_modular_div_schoolbook_spec ns ds _ hds hinv

/-- Witness for C5 at `ns = [9, 5]`, `ds = [3]`. -/
theorem claim_C5_witness :
    (([3] : List Nat) ≠ [] ∧ ([3] : List Nat).length ≤ ([9, 5] : List Nat).length
        ∧ ([3] : List Nat).headD 0 % 2 = 1 ∧ ∀ x ∈ ([3] : List Nat), x < limbBase)
      ∧ (_limbs_modular_div_schoolbook [9, 5] [3]
            ((limbBase - limbs_modular_invert_limb (([3] : List Nat).headD 0))
              % limbBase)).length = ([9, 5] : List Nat).length
      ∧ limbsVal (_limbs_modular_div_schoolbook [9, 5] [3]
            ((limbBase - limbs_modular_invert_limb (([3] : List Nat).headD 0))
              % limbBase))
          * limbsVal [3]
        ≡ limbsVal [9, 5] [MOD limbBase ^ ([9, 5] : List Nat).length] :=
  ⟨⟨by decide, by decide, by decide, by decide⟩,
    (claim_C5_modular_div_schoolbook [9, 5] [3] (by decide) (by decide) (by decide)
      (by decide)).1,
    (claim_C5_modular_div_schoolbook [9, 5] [3] (by decide) (by decide) (by decide)
      (by decide)).2⟩

/-! ### Further limb primitives (spec §6 collaborators, modelled by contract)

The remaining basic limb-sequence primitives consumed by the division and
inverse engines live in `natural::arithmetic::{add, sub, sub_mul, mul}` and
`integer::conversion::to_twos_complement_limbs`, none of which are under
`src/`; the spec (§6) lists them as assumed-correct collaborators, so each is
modelled by its documented contract. -/

/-- Modelled from the spec: `limbs_slice_add_greater_in_place_left`
(`natural::arithmetic::add`, not under `src/`): `xs += ys` in place
(`ys` no longer than `xs`), returning the carry out of the slice. -/
def limbs_slice_add_greater_in_place_left (xs ys : List Nat) : List Nat × Bool :=
  (natToLimbs (limbsVal xs + limbsVal ys) xs.length,
    decide (limbBase ^ xs.length ≤ limbsVal xs + limbsVal ys))

/-- Modelled from the spec: `limbs_slice_add_same_length_in_place_left`
(`natural::arithmetic::add`, not under `src/`): `xs += ys` in place for equal
lengths, returning the carry out of the slice. -/
def limbs_slice_add_same_length_in_place_left (xs ys : List Nat) : List Nat × Bool :=
  (natToLimbs (limbsVal xs + limbsVal ys) xs.length,
    decide (limbBase ^ xs.length ≤ limbsVal xs + limbsVal ys))

/-- Modelled from the spec: `limbs_sub_same_length_in_place_left`
(`natural::arithmetic::sub`, not under `src/`): `xs -= ys` in place with
wraparound, returning the borrow out of the slice. -/
def limbs_sub_same_length_in_place_left (xs ys : List Nat) : List Nat × Bool :=
  (natToLimbs (limbBase ^ xs.length + limbsVal xs - limbsVal ys) xs.length,
    decide (limbsVal xs < limbsVal ys))

/-- Modelled from the spec: `limbs_sub_in_place_left`
(`natural::arithmetic::sub`, not under `src/`): `xs -= ys` in place
(`ys` no longer than `xs`) with wraparound, returning the borrow. -/
def limbs_sub_in_place_left (xs ys : List Nat) : List Nat × Bool :=
  (natToLimbs (limbBase ^ xs.length + limbsVal xs - limbsVal ys) xs.length,
    decide (limbsVal xs < limbsVal ys))

/-- Modelled from the spec: `limbs_sub_limb_in_place`
(`natural::arithmetic::sub`, not under `src/`): `xs -= y` for a limb `y`,
with wraparound, returning the borrow. -/
def limbs_sub_limb_in_place (xs : List Nat) (y : Nat) : List Nat × Bool :=
  (natToLimbs (limbBase ^ xs.length + limbsVal xs - y) xs.length,
    decide (limbsVal xs < y))

/-- Modelled from the spec: `limbs_sub_limb_to_out`
(`natural::arithmetic::sub`, not under `src/`): writes `xs - y` (wrapped)
limbwise to the output, returning the borrow. -/
def limbs_sub_limb_to_out (xs : List Nat) (y : Nat) : List Nat × Bool :=
  (natToLimbs (limbBase ^ xs.length + limbsVal xs - y) xs.length,
    decide (limbsVal xs < y))

/-- Modelled from the spec:
`limbs_sub_mul_limb_same_length_in_place_left`
(`natural::arithmetic::sub_mul`, not under `src/`): `xs -= ys * y` in place,
returning the borrowed-out amount `K` with
`new = xs + K * B ^ len - ys * y`. -/
def limbs_sub_mul_limb_same_length_in_place_left (xs ys : List Nat) (y : Nat) :
    List Nat × Nat :=
  let t := limbsVal ys * y
  let len := xs.length
  let K := (t + limbBase ^ len - 1 - limbsVal xs) / limbBase ^ len
  (natToLimbs (limbsVal xs + K * limbBase ^ len - t) len, K)

/-- Modelled from the spec: `limbs_twos_complement_in_place`
(`integer::conversion::to_twos_complement_limbs`, not under `src/`): replaces
`xs` by its two's complement `(B ^ len - xs) mod B ^ len`. -/
def limbs_twos_complement_in_place (xs : List Nat) : List Nat :=
  natToLimbs (limbBase ^ xs.length - limbsVal xs) xs.length

/-- Modelled from the spec: `limbs_mul_greater_to_out`
(`natural::arithmetic::mul`, not under `src/`; spec §6's generic multiply
primitive): writes the full `xs.len() + ys.len()`-limb product. -/
def limbs_mul_greater_to_out (xs ys : List Nat) : List Nat :=
  natToLimbs (limbsVal xs * limbsVal ys) (xs.length + ys.length)

/-- Modelled from the spec: `limbs_mul_to_out`
(`natural::arithmetic::mul`, not under `src/`): the full product, either
operand order. -/
def limbs_mul_to_out (xs ys : List Nat) : List Nat :=
  natToLimbs (limbsVal xs * limbsVal ys) (xs.length + ys.length)

/-- Modelled from the spec: `limbs_mul_low_same_length`
(`natural::arithmetic::mul::mul_low`, not under `src/`): the low
`xs.len()` limbs of the product, i.e. `xs * ys mod B ^ len`. -/
def limbs_mul_low_same_length (xs ys : List Nat) : List Nat :=
  natToLimbs (limbsVal xs * limbsVal ys) xs.length

/-- Value of a wrapped subtraction `natToLimbs (B ^ n + a - b) n`, over ℤ. -/
theorem wrapSub_val (n a b : Nat) (ha : a < limbBase ^ n) (hb : b < limbBase ^ n) :
    ((limbsVal (natToLimbs (limbBase ^ n + a - b) n) : Nat) : Int)
      = (a : Int) - b + (if a < b then ((limbBase : Int)) ^ n else 0) := by
  rw [limbsVal_natToLimbs]
  by_cases h : a < b
  · have hlt : limbBase ^ n + a - b < limbBase ^ n := by omega
    rw [Nat.mod_eq_of_lt hlt, if_pos h, Nat.cast_sub (by omega)]
    push_cast
    ring
  · have heq : limbBase ^ n + a - b = limbBase ^ n + (a - b) := by omega
    rw [heq, Nat.add_mod_left, Nat.mod_eq_of_lt (by omega), if_neg h,
      Nat.cast_sub (by omega)]
    ring

/-- Value of a wrapped addition `natToLimbs (a + b) n`, over ℤ. -/
theorem wrapAdd_val (n a b : Nat) (ha : a < limbBase ^ n) (hb : b < limbBase ^ n) :
    ((limbsVal (natToLimbs (a + b) n) : Nat) : Int)
      = (a : Int) + b
        - (if limbBase ^ n ≤ a + b then ((limbBase : Int)) ^ n else 0) := by
  rw [limbsVal_natToLimbs]
  by_cases h : limbBase ^ n ≤ a + b
  · have heq : (a + b) % limbBase ^ n = a + b - limbBase ^ n := by
      rw [Nat.mod_eq_sub_mod h, Nat.mod_eq_of_lt (by omega)]
    rw [heq, if_pos h, Nat.cast_sub (by omega)]
    push_cast
    ring
  · rw [Nat.mod_eq_of_lt (by omega), if_neg h]
    push_cast
    ring

/-- Value of the wrapped submul primitive, over ℤ: the returned borrow `K`
satisfies `new = xs + K * B ^ len - ys * y` exactly. -/
theorem wrapSubMul_val (xs ys : List Nat) (y : Nat)
    (hx : limbsVal xs < limbBase ^ xs.length) :
    ((limbsVal (limbs_sub_mul_limb_same_length_in_place_left xs ys y).1 : Nat) : Int)
      = (limbsVal xs : Int)
        + ((limbs_sub_mul_limb_same_length_in_place_left xs ys y).2 : Int)
          * ((limbBase : Int)) ^ xs.length
        - (limbsVal ys : Int) * y := by
  simp only [limbs_sub_mul_limb_same_length_in_place_left]
  rw [limbsVal_natToLimbs]
  have hpow : 0 < limbBase ^ xs.length :=
    Nat.pos_pow_of_pos _ (by norm_num [limbBase, limbWidth])
  set A := limbsVal ys * y + limbBase ^ xs.length - 1 - limbsVal xs with hAdef
  have h1 : A / limbBase ^ xs.length * limbBase ^ xs.length ≤ A :=
    Nat.div_mul_le_self A _
  have h2 : A < A / limbBase ^ xs.length * limbBase ^ xs.length
      + limbBase ^ xs.length := by
    rw [Nat.mul_comm]
    have h3 := Nat.div_add_mod A (limbBase ^ xs.length)
    have h4 := Nat.mod_lt A hpow
    omega
  have hlow : limbsVal ys * y ≤ limbsVal xs
      + A / limbBase ^ xs.length * limbBase ^ xs.length := by omega
  have hhigh : limbsVal xs + A / limbBase ^ xs.length * limbBase ^ xs.length
      - limbsVal ys * y < limbBase ^ xs.length := by omega
  rw [Nat.mod_eq_of_lt hhigh, Nat.cast_sub hlow]
  push_cast
  ring

/-! ### `_limbs_modular_div_mod_schoolbook` (mpn_sbpi1_bdiv_qr) -/

/-- One quotient-limb step of the qr-schoolbook division. Unlike the
quotient-only variant, the addmul carry is not folded into the high part:
the identity is exact, with the carry scaled by `B ^ ds.len()`. -/
theorem mod_sb_step_value (ns ds : List Nat) (q : Nat)
    (hd : ds ≠ []) (hle : ds.length ≤ ns.length)
    (ht0 : (limbsVal (ns.take ds.length) + limbsVal ds * q) % limbBase = 0) :
    limbsVal ns + limbsVal ds * q
      = limbBase * limbsVal
          ((natToLimbs (limbsVal (ns.take ds.length) + limbsVal ds * q)
            ds.length).tail ++ ns.drop ds.length)
        + (limbsVal (ns.take ds.length) + limbsVal ds * q) / limbBase ^ ds.length
          * limbBase ^ ds.length := by
  rcases ds with _ | ⟨d0, drest⟩
  · exact absurd rfl hd
  set d := (d0 :: drest).length with hddef
  set t := limbsVal (ns.take d) + limbsVal (d0 :: drest) * q with htdef
  have htail : (natToLimbs t d).tail.length = d - 1 := by
    rw [List.length_tail, length_natToLimbs]
  have happ : limbsVal ((natToLimbs t d).tail ++ ns.drop d)
      = limbsVal (natToLimbs t d).tail + limbBase ^ (d - 1) * limbsVal (ns.drop d) := by
    rw [limbsVal_append, htail]
  have hd1 : d = (d - 1) + 1 := by
    simp only [hddef, List.length_cons]
    omega
  have hmt : limbBase * limbsVal (natToLimbs t ((d - 1) + 1)).tail
      = t % limbBase ^ ((d - 1) + 1) := mul_limbsVal_tail t (d - 1) ht0
  rw [← hd1] at hmt
  have hns : limbsVal ns = limbsVal (ns.take d) + limbBase ^ d * limbsVal (ns.drop d) := by
    conv_lhs => rw [← List.take_append_drop d ns]
    rw [limbsVal_append, List.length_take, Nat.min_eq_left hle]
  have hmoddiv : t % limbBase ^ d + t / limbBase ^ d * limbBase ^ d = t :=
    Nat.mod_add_div' t (limbBase ^ d)
  calc limbsVal ns + limbsVal (d0 :: drest) * q
      = t + limbBase ^ d * limbsVal (ns.drop d) := by rw [hns, htdef]; ring
    _ = t % limbBase ^ d + t / limbBase ^ d * limbBase ^ d
          + limbBase ^ d * limbsVal (ns.drop d) := by rw [hmoddiv]
    _ = limbBase * limbsVal ((natToLimbs t d).tail ++ ns.drop d)
          + t / limbBase ^ d * limbBase ^ d := by
        rw [happ, Nat.mul_add, hmt]
        have hpow : limbBase * (limbBase ^ (d - 1) * limbsVal (ns.drop d))
            = limbBase ^ d * limbsVal (ns.drop d) := by
          rw [← Nat.mul_assoc, ← pow_succ', ← hd1]
        rw [hpow]
        ring

/-- The inner quotient-limb loop of `_limbs_modular_div_mod_schoolbook`
(`for i in q_diff..` in `div_exact.rs`): processes `count` quotient limbs,
returning the stored complemented quotient limbs, the addmul carries written
back at `ns[i]` (read later as `np_lo`), and the remaining window. -/
def mod_sb_inner (ds : List Nat) (d_inv : Nat) : Nat → List Nat → List Nat × List Nat × List Nat
  | 0, ns => ([], [], ns)
  | count + 1, ns =>
    let q := wmul d_inv (ns.headD 0)
    let am := limbs_slice_add_mul_limb_same_length_in_place_left (ns.take ds.length) ds q
    let r := mod_sb_inner ds d_inv count (am.1.tail ++ ns.drop ds.length)
    (limbNot q :: r.1, am.2 :: r.2.1, r.2.2)

/-- Lengths, limb bounds, and the exact value identity of the inner loop:
`N + (B ^ count − 1 − Q̄) · D = B ^ count · rest + B ^ d · carries`. -/
theorem mod_sb_inner_spec (ds : List Nat) (d_inv : Nat)
    (hd : ds ≠ []) (hdl : ∀ x ∈ ds, x < limbBase)
    (hinv : (d_inv * ds.headD 0 + 1) % limbBase = 0) :
    ∀ count ns, count + ds.length ≤ ns.length → (∀ x ∈ ns, x < limbBase) →
      (mod_sb_inner ds d_inv count ns).1.length = count ∧
      (mod_sb_inner ds d_inv count ns).2.1.length = count ∧
      (mod_sb_inner ds d_inv count ns).2.2.length = ns.length - count ∧
      (∀ x ∈ (mod_sb_inner ds d_inv count ns).1, x < limbBase) ∧
      (∀ x ∈ (mod_sb_inner ds d_inv count ns).2.1, x < limbBase) ∧
      (∀ x ∈ (mod_sb_inner ds d_inv count ns).2.2, x < limbBase) ∧
      ((limbsVal ns : Int)
          + ((limbBase : Int) ^ count - 1 - limbsVal (mod_sb_inner ds d_inv count ns).1)
            * limbsVal ds
        = (limbBase : Int) ^ count * limbsVal (mod_sb_inner ds d_inv count ns).2.2
          + (limbBase : Int) ^ ds.length * limbsVal (mod_sb_inner ds d_inv count ns).2.1) := by
  intro count
  induction count with
  | zero =>
    intro ns _ hns
    refine ⟨rfl, rfl, by simp [mod_sb_inner], ?_, ?_, ?_, ?_⟩
    · intro x hx; simp [mod_sb_inner] at hx
    · intro x hx; simp [mod_sb_inner] at hx
    · intro x hx; simpa [mod_sb_inner] using hns x (by simpa [mod_sb_inner] using hx)
    · simp [mod_sb_inner, limbsVal]
  | succ k ih =>
    intro ns hlen hns
    rcases ds with _ | ⟨d0, drest⟩
    · exact absurd rfl hd
    rcases ns with _ | ⟨n0, nrest⟩
    · simp only [List.length_cons, List.length_nil] at hlen
      omega
    set d := (d0 :: drest).length with hddef
    have hdpos : 0 < d := by
      rw [hddef]
      simp only [List.length_cons]
      omega
    simp only [List.length_cons] at hlen
    have hdle : d ≤ (n0 :: nrest).length := by
      simp only [List.length_cons]
      omega
    set q := wmul d_inv ((n0 :: nrest).headD 0) with hqdef
    set t := limbsVal (List.take d (n0 :: nrest)) + limbsVal (d0 :: drest) * q with htdef
    set ns1 := (natToLimbs t d).tail ++ List.drop d (n0 :: nrest) with hns1def
    have hstake : (List.take d (n0 :: nrest)).length = d := by
      rw [List.length_take]
      exact Nat.min_eq_left hdle
    have hqlt : q < limbBase := by
      rw [hqdef]
      unfold wmul
      exact Nat.mod_lt _ limbBase_pos
    have ht0 : t % limbBase = 0 := by
      have hd1 : d = (d - 1) + 1 := by omega
      have hhead : (n0 :: nrest).take d = n0 :: nrest.take (d - 1) := by
        conv_lhs => rw [hd1]
        rw [List.take_succ_cons]
      have hq0 : q = wmul d_inv n0 := by rw [hqdef]; rfl
      rw [htdef, hhead, limbsVal_cons, limbsVal_cons, hq0]
      exact schoolbook_head_zero d_inv n0 d0 (limbsVal (nrest.take (d - 1)))
        (limbsVal drest) hinv
    have hunfold : mod_sb_inner (d0 :: drest) d_inv (k + 1) (n0 :: nrest)
        = (limbNot q :: (mod_sb_inner (d0 :: drest) d_inv k ns1).1,
           t / limbBase ^ d :: (mod_sb_inner (d0 :: drest) d_inv k ns1).2.1,
           (mod_sb_inner (d0 :: drest) d_inv k ns1).2.2) := by
      simp only [mod_sb_inner, limbs_slice_add_mul_limb_same_length_in_place_left]
      simp only [hstake]
    have hns1len : ns1.length = nrest.length := by
      rw [hns1def, List.length_append, List.length_tail, length_natToLimbs,
        List.length_drop]
      simp only [List.length_cons]
      omega
    have hns1limb : ∀ x ∈ ns1, x < limbBase := by
      intro x hx
      rw [hns1def, List.mem_append] at hx
      rcases hx with hx | hx
      · exact natToLimbs_lt t d x (List.mem_of_mem_tail hx)
      · exact hns x (List.mem_of_mem_drop hx)
    have hlen1 : k + d ≤ ns1.length := by rw [hns1len]; omega
    have hih := ih ns1 hlen1 hns1limb
    have htlt : t / limbBase ^ d < limbBase := by
      apply Nat.div_lt_of_lt_mul
      have hpow : 0 < limbBase ^ d := Nat.pos_pow_of_pos _ limbBase_pos
      have h1 : limbsVal (List.take d (n0 :: nrest)) < limbBase ^ d := by
        have := limbsVal_lt (List.take d (n0 :: nrest))
          (fun x hx => hns x (List.mem_of_mem_take hx))
        rwa [hstake] at this
      have hD : limbsVal (d0 :: drest) < limbBase ^ d := by
        have := limbsVal_lt (d0 :: drest) hdl
        rwa [← hddef] at this
      have h2 : limbsVal (d0 :: drest) * q ≤ (limbBase ^ d - 1) * (limbBase - 1) :=
        Nat.mul_le_mul (by omega) (by omega)
      have hB : limbBase - 1 + 1 = limbBase := Nat.succ_pred_eq_of_pos limbBase_pos
      have h3 : (limbBase ^ d - 1) * (limbBase - 1) + (limbBase ^ d - 1)
          = (limbBase ^ d - 1) * limbBase := by
        rw [limbBase_eq]
        ring
      have h4 : (limbBase ^ d - 1) * limbBase < limbBase ^ d * limbBase :=
        (Nat.mul_lt_mul_right limbBase_pos).mpr (by omega)
      rw [htdef]
      omega
    have hstep := mod_sb_step_value (n0 :: nrest) (d0 :: drest) q hd hdle ht0
    rw [← hddef] at hstep
    rw [← htdef, ← hns1def] at hstep
    have hstepI : ((limbsVal (n0 :: nrest) : Nat) : Int)
        + (limbsVal (d0 :: drest) : Int) * q
        = (limbBase : Int) * limbsVal ns1
          + ((t / limbBase ^ d : Nat) : Int) * (limbBase : Int) ^ d := by
      exact_mod_cast hstep
    rw [hunfold]
    refine ⟨?_, ?_, ?_, ?_, ?_, ?_, ?_⟩
    · simp only [List.length_cons, hih.1]
    · simp only [List.length_cons, hih.2.1]
    · rw [hih.2.2.1, hns1len]
      simp only [List.length_cons]
      omega
    · intro x hx
      rcases List.mem_cons.mp hx with hx | hx
      · rw [hx]; exact limbNot_lt q
      · exact hih.2.2.2.1 x hx
    · intro x hx
      rcases List.mem_cons.mp hx with hx | hx
      · rw [hx]; exact htlt
      · exact hih.2.2.2.2.1 x hx
    · exact hih.2.2.2.2.2.1
    · have hIH := hih.2.2.2.2.2.2
      simp only [limbsVal_cons] at hstepI hIH ⊢
      push_cast at hstepI hIH ⊢
      rw [limbNot_cast q hqlt]
      linear_combination hstepI + (limbBase : Int) * hIH

/-- The chunked outer loop of `_limbs_modular_div_mod_schoolbook`: each round
produces `ds.len()` quotient limbs (the final round `q_len_s ≤ ds.len()`),
folds the stored carries into the high part, and adds the pending `+1` into
the freshly written quotient chunk. -/
def _limbs_modular_div_mod_schoolbook_blocks (d0 : Nat) (drest : List Nat) (d_inv : Nat)
    (q_len_s : Nat) (ns : List Nat) (highest_r lowest_q : Bool) :
    List Nat × List Nat × Bool :=
  if h : (d0 :: drest).length < q_len_s then
    let step := mod_sb_inner (d0 :: drest) d_inv (d0 :: drest).length ns
    let add := limbs_slice_add_greater_in_place_left step.2.2 step.2.1
    let qa := if lowest_q then limbs_slice_add_limb_in_place step.1 1 else (step.1, true)
    let r := _limbs_modular_div_mod_schoolbook_blocks d0 drest d_inv
      (q_len_s - (d0 :: drest).length) add.1 (highest_r || add.2) (lowest_q && qa.2)
    (qa.1 ++ r.1, r.2.1, r.2.2)
  else
    let step := mod_sb_inner (d0 :: drest) d_inv q_len_s ns
    let add := limbs_slice_add_same_length_in_place_left
      (step.2.2.drop ((d0 :: drest).length - q_len_s)) step.2.1
    let r0 := step.2.2.take ((d0 :: drest).length - q_len_s) ++ add.1
    let highest_r1 := highest_r || add.2
    if lowest_q then
      let qa := limbs_slice_add_limb_in_place step.1 1
      if qa.2 then (qa.1, r0, false)
      else
        let sub := limbs_sub_same_length_in_place_left r0 (d0 :: drest)
        (qa.1, sub.1, sub.2 != highest_r1)
    else
      let sub := limbs_sub_same_length_in_place_left r0 (d0 :: drest)
      (step.1, sub.1, sub.2 != highest_r1)
termination_by q_len_s
decreasing_by
  simp only [List.length_cons] at h ⊢
  omega

/-- `_limbs_modular_div_mod_schoolbook` from `div_exact.rs`
(mpn_sbpi1_bdiv_qr): Hensel division with remainder. Returns the `q_len`
quotient limbs, the `ds.len()` limbs of `R` stored at `ns[q_len..]`, and the
borrow from the subtraction `N - Q * D`. -/
def _limbs_modular_div_mod_schoolbook (ns ds : List Nat) (d_inv : Nat) :
    List Nat × List Nat × Bool :=
  match ds with
  | [] => ([], [], false)
  | d0 :: drest =>
    _limbs_modular_div_mod_schoolbook_blocks d0 drest d_inv
      (ns.length - (d0 :: drest).length) ns false true

set_option maxHeartbeats 1600000 in
/-- Spec of the final (short) round of `_limbs_modular_div_mod_schoolbook`:
`q_len_s ≤ ds.len()` quotient limbs are produced, the carries are folded into
the top `q_len_s` remainder limbs, the pending `+1` is resolved, and `D` is
subtracted unless the whole quotient turned out to be zero. -/
theorem mod_sb_blocks_final_spec (d0 : Nat) (drest : List Nat) (d_inv : Nat)
    (qls : Nat) (ns : List Nat) (hr lq : Bool)
    (hdl : ∀ x ∈ (d0 :: drest), x < limbBase)
    (hinv : (d_inv * d0 + 1) % limbBase = 0)
    (hlen : ns.length = (d0 :: drest).length + qls)
    (hns : ∀ x ∈ ns, x < limbBase)
    (hqpos : 0 < qls)
    (hqd : ¬ ((d0 :: drest).length < qls))
    (hlqhr : lq = true → hr = false)
    (hhr : hr = true → limbsVal ns < limbsVal (d0 :: drest)) :
    (_limbs_modular_div_mod_schoolbook_blocks d0 drest d_inv qls ns hr lq).1.length = qls ∧
    (_limbs_modular_div_mod_schoolbook_blocks d0 drest d_inv qls ns hr lq).2.1.length
      = (d0 :: drest).length ∧
    (∀ x ∈ (_limbs_modular_div_mod_schoolbook_blocks d0 drest d_inv qls ns hr lq).1,
      x < limbBase) ∧
    (∀ x ∈ (_limbs_modular_div_mod_schoolbook_blocks d0 drest d_inv qls ns hr lq).2.1,
      x < limbBase) ∧
    ((limbsVal ns : Int) + (if hr then 1 else 0) * (limbBase : Int) ^ ns.length
      - ((limbsVal (_limbs_modular_div_mod_schoolbook_blocks d0 drest d_inv qls ns hr lq).1 : Int)
          + (if lq then 0 else 1)) * (limbsVal (d0 :: drest) : Int)
      = (limbBase : Int) ^ qls
        * ((limbsVal (_limbs_modular_div_mod_schoolbook_blocks d0 drest d_inv qls ns hr lq).2.1 : Int)
          - (if (_limbs_modular_div_mod_schoolbook_blocks d0 drest d_inv qls ns hr lq).2.2 then
              (limbBase : Int) ^ (d0 :: drest).length else 0))) := by
  set d := (d0 :: drest).length with hddef
  have hdpos : 0 < d := by rw [hddef]; simp only [List.length_cons]; omega
  have hqled : qls ≤ d := by omega
  -- the inner loop
  have hstep := mod_sb_inner_spec (d0 :: drest) d_inv (by simp) hdl
    (by simpa using hinv) qls ns (by omega) hns
  set step := mod_sb_inner (d0 :: drest) d_inv qls ns with hstepdef
  obtain ⟨hL1, hL2, hL3, hB1, hB2, hB3, hVal⟩ := hstep
  rw [← hddef] at hVal
  have hrestlen : step.2.2.length = d := by rw [hL3, hlen]; omega
  set lo := step.2.2.take (d - qls) with hlodef
  set hi := step.2.2.drop (d - qls) with hhidef
  have hlolen : lo.length = d - qls := by
    rw [hlodef, List.length_take, hrestlen]
    omega
  have hhilen : hi.length = qls := by
    rw [hhidef, List.length_drop, hrestlen]
    omega
  have hloB : ∀ x ∈ lo, x < limbBase := fun x hx => hB3 x (List.mem_of_mem_take hx)
  have hhiB : ∀ x ∈ hi, x < limbBase := fun x hx => hB3 x (List.mem_of_mem_drop hx)
  have hrestsplit : (limbsVal step.2.2 : Int)
      = (limbsVal lo : Int) + (limbBase : Int) ^ (d - qls) * limbsVal hi := by
    have : limbsVal step.2.2 = limbsVal lo + limbBase ^ (d - qls) * limbsVal hi := by
      conv_lhs => rw [← List.take_append_drop (d - qls) step.2.2]
      rw [limbsVal_append, ← hlodef, ← hhidef, hlolen]
    exact_mod_cast this
  have hhival : limbsVal hi < limbBase ^ qls := by
    have := limbsVal_lt hi hhiB
    rwa [hhilen] at this
  have hcsval : limbsVal step.2.1 < limbBase ^ qls := by
    have := limbsVal_lt step.2.1 hB2
    rwa [hL2] at this
  set add := limbs_slice_add_same_length_in_place_left hi step.2.1 with hadddef
  have haddnorm : add = (natToLimbs (limbsVal hi + limbsVal step.2.1) qls,
      decide (limbBase ^ qls ≤ limbsVal hi + limbsVal step.2.1)) := by
    rw [hadddef]
    simp only [limbs_slice_add_same_length_in_place_left, hhilen]
  have hAddVal : ((limbsVal add.1 : Nat) : Int)
      = (limbsVal hi : Int) + limbsVal step.2.1
        - (if add.2 then ((limbBase : Int)) ^ qls else 0) := by
    rw [haddnorm]
    simp only [decide_eq_true_eq]
    exact wrapAdd_val qls _ _ hhival hcsval
  have haddlen : add.1.length = qls := by rw [haddnorm, length_natToLimbs]
  have haddB : ∀ x ∈ add.1, x < limbBase := by
    rw [haddnorm]
    exact natToLimbs_lt _ _
  set r0 := lo ++ add.1 with hr0def
  have hR0len : r0.length = d := by
    rw [hr0def, List.length_append, hlolen, haddlen]
    omega
  have hR0B : ∀ x ∈ r0, x < limbBase := by
    intro x hx
    rw [hr0def, List.mem_append] at hx
    rcases hx with hx | hx
    · exact hloB x hx
    · exact haddB x hx
  have hR0Val : ((limbsVal r0 : Nat) : Int)
      = (limbsVal lo : Int) + (limbBase : Int) ^ (d - qls) * limbsVal add.1 := by
    have : limbsVal r0 = limbsVal lo + limbBase ^ (d - qls) * limbsVal add.1 := by
      rw [hr0def, limbsVal_append, hlolen]
    exact_mod_cast this
  have hbr1 : ((limbBase : Int)) ^ (d - qls) * ((limbBase : Int)) ^ qls
      = ((limbBase : Int)) ^ d := by
    rw [← pow_add]
    congr 1
    omega
  have hStar : (limbsVal ns : Int)
      + (((limbBase : Int)) ^ qls - 1 - limbsVal step.1) * limbsVal (d0 :: drest)
      = ((limbBase : Int)) ^ qls * limbsVal r0
        + (if add.2 then (1 : Int) else 0)
          * (((limbBase : Int)) ^ d * ((limbBase : Int)) ^ qls) := by
    have hov : (if add.2 then ((limbBase : Int)) ^ qls else 0)
        = (if add.2 then (1 : Int) else 0) * ((limbBase : Int)) ^ qls := by
      cases add.2 <;> simp
    rw [hov] at hAddVal
    linear_combination hVal + ((limbBase : Int)) ^ qls * hrestsplit
      - ((limbBase : Int)) ^ qls * ((limbBase : Int)) ^ (d - qls) * hAddVal
      - ((limbBase : Int)) ^ qls * hR0Val
      + ((if add.2 then (1 : Int) else 0) * ((limbBase : Int)) ^ qls
          - (limbsVal step.2.1 : Int)) * hbr1
  -- bound facts over ℤ
  have hBpos : (0 : Int) < (limbBase : Int) := by norm_num [limbBase_eq]
  have hBqpos : (0 : Int) < ((limbBase : Int)) ^ qls := pow_pos hBpos _
  have hBdpos : (0 : Int) < ((limbBase : Int)) ^ d := pow_pos hBpos _
  have hd0pos : 0 < d0 := by
    rcases Nat.eq_zero_or_pos d0 with h | h
    · rw [h] at hinv
      rw [Nat.mul_zero, Nat.zero_add, Nat.mod_eq_of_lt one_lt_limbBase] at hinv
      omega
    · exact h
  have hDpos : (0 : Int) < (limbsVal (d0 :: drest) : Int) := by
    have : 0 < limbsVal (d0 :: drest) := by
      rw [limbsVal_cons]
      omega
    exact_mod_cast this
  have hDlt : (limbsVal (d0 :: drest) : Int) < ((limbBase : Int)) ^ d := by
    have := limbsVal_lt (d0 :: drest) hdl
    rw [← hddef] at this
    exact_mod_cast this
  have hNslt : (limbsVal ns : Int) < ((limbBase : Int)) ^ d * ((limbBase : Int)) ^ qls := by
    have := limbsVal_lt ns hns
    rw [hlen] at this
    have h2 : ((limbsVal ns : Nat) : Int) < ((limbBase : Int)) ^ (d + qls) := by
      exact_mod_cast this
    rwa [pow_add] at h2
  have hLqlt : (limbsVal step.1 : Int) < ((limbBase : Int)) ^ qls := by
    have := limbsVal_lt step.1 hB1
    rw [hL1] at this
    exact_mod_cast this
  have hLqnn : (0 : Int) ≤ (limbsVal step.1 : Int) := Int.natCast_nonneg _
  have hR0nn : (0 : Int) ≤ (limbsVal r0 : Int) := Int.natCast_nonneg _
  have hNsnn : (0 : Int) ≤ (limbsVal ns : Int) := Int.natCast_nonneg _
  have hexp : ((limbBase : Int)) ^ ns.length
      = ((limbBase : Int)) ^ d * ((limbBase : Int)) ^ qls := by
    rw [hlen, pow_add]
  -- the deficit `Q' = B^qls - 1 - lv step.1` times `D` is at most `(B^qls - 1) * D`
  have hq'd : (((limbBase : Int)) ^ qls - 1 - limbsVal step.1) * limbsVal (d0 :: drest)
      ≤ (((limbBase : Int)) ^ qls - 1) * limbsVal (d0 :: drest) := by
    apply mul_le_mul_of_nonneg_right _ (le_of_lt hDpos)
    omega
  -- the two carry assertions of the source
  have hNoDouble : hr = true → add.2 = false := by
    intro h
    by_contra hov
    rw [Bool.not_eq_false] at hov
    rw [hov, if_pos rfl] at hStar
    have hND : (limbsVal ns : Int) < limbsVal (d0 :: drest) := by
      exact_mod_cast hhr h
    have h1 : ((limbBase : Int)) ^ qls * limbsVal r0
          + ((limbBase : Int)) ^ d * ((limbBase : Int)) ^ qls
        ≤ (limbsVal ns : Int) + (((limbBase : Int)) ^ qls - 1) * limbsVal (d0 :: drest) := by
      rw [one_mul] at hStar
      linarith [hStar, hq'd]
    have hring : (((limbBase : Int)) ^ qls - 1) * limbsVal (d0 :: drest)
        = ((limbBase : Int)) ^ qls * limbsVal (d0 :: drest) - limbsVal (d0 :: drest) := by
      ring
    have h2 : (limbsVal ns : Int) + (((limbBase : Int)) ^ qls - 1) * limbsVal (d0 :: drest)
        < ((limbBase : Int)) ^ qls * limbsVal (d0 :: drest) := by
      linarith [hND, hring]
    have h3 : ((limbBase : Int)) ^ qls * limbsVal (d0 :: drest)
        < ((limbBase : Int)) ^ qls * ((limbBase : Int)) ^ d :=
      mul_lt_mul_of_pos_left hDlt hBqpos
    have hcomm : ((limbBase : Int)) ^ d * ((limbBase : Int)) ^ qls
        = ((limbBase : Int)) ^ qls * ((limbBase : Int)) ^ d := mul_comm _ _
    linarith [h1, h2, h3, hcomm, mul_nonneg (le_of_lt hBqpos) hR0nn]
  have hR0ltD : (hr || add.2) = true → limbsVal r0 < limbsVal (d0 :: drest) := by
    intro h
    have hgoal : (limbsVal r0 : Int) < (limbsVal (d0 :: drest) : Int) := by
      rcases Bool.or_eq_true_iff.mp h with hcase | hcase
      · -- previous-round overflow: the running numerator is below D, no new overflow
        have hov : add.2 = false := hNoDouble hcase
        rw [hov, if_neg (by simp)] at hStar
        have hND : (limbsVal ns : Int) < limbsVal (d0 :: drest) := by
          exact_mod_cast hhr hcase
        have hring : (((limbBase : Int)) ^ qls - 1) * limbsVal (d0 :: drest)
            = ((limbBase : Int)) ^ qls * limbsVal (d0 :: drest) - limbsVal (d0 :: drest) := by
          ring
        have h1 : ((limbBase : Int)) ^ qls * limbsVal r0
            < ((limbBase : Int)) ^ qls * limbsVal (d0 :: drest) := by
          linarith [hStar, hq'd, hND, hring]
        exact lt_of_mul_lt_mul_left h1 (le_of_lt hBqpos)
      · rw [hcase, if_pos rfl, one_mul] at hStar
        have hring : (((limbBase : Int)) ^ qls - 1) * limbsVal (d0 :: drest)
            = ((limbBase : Int)) ^ qls * limbsVal (d0 :: drest) - limbsVal (d0 :: drest) := by
          ring
        have hcomm : ((limbBase : Int)) ^ d * ((limbBase : Int)) ^ qls
            = ((limbBase : Int)) ^ qls * ((limbBase : Int)) ^ d := mul_comm _ _
        have h1 : ((limbBase : Int)) ^ qls * limbsVal r0
            < ((limbBase : Int)) ^ qls * limbsVal (d0 :: drest) := by
          linarith [hStar, hq'd, hNslt, hring, hcomm]
        exact lt_of_mul_lt_mul_left h1 (le_of_lt hBqpos)
    exact_mod_cast hgoal
  -- the wrapped subtraction of D
  set sub := limbs_sub_same_length_in_place_left r0 (d0 :: drest) with hsubdef
  have hsubnorm : sub = (natToLimbs
      (limbBase ^ d + limbsVal r0 - limbsVal (d0 :: drest)) d,
      decide (limbsVal r0 < limbsVal (d0 :: drest))) := by
    rw [hsubdef]
    simp only [limbs_sub_same_length_in_place_left, hR0len]
  have hR0ltB : limbsVal r0 < limbBase ^ d := by
    have := limbsVal_lt r0 hR0B
    rwa [hR0len] at this
  have hDltB : limbsVal (d0 :: drest) < limbBase ^ d := by exact_mod_cast hDlt
  have hSubVal : ((limbsVal sub.1 : Nat) : Int)
      = (limbsVal r0 : Int) - limbsVal (d0 :: drest)
        + (if sub.2 then (1 : Int) else 0) * ((limbBase : Int)) ^ d := by
    rw [hsubnorm]
    simp only [decide_eq_true_eq]
    rw [wrapSub_val d _ _ hR0ltB hDltB]
    by_cases hc : limbsVal r0 < limbsVal (d0 :: drest)
    · rw [if_pos hc, if_pos hc, one_mul]
    · rw [if_neg hc, if_neg hc, zero_mul]
  have hsublen : sub.1.length = d := by rw [hsubnorm, length_natToLimbs]
  have hsubB : ∀ x ∈ sub.1, x < limbBase := by
    rw [hsubnorm]
    exact natToLimbs_lt _ _
  have hsub2iff : sub.2 = decide (limbsVal r0 < limbsVal (d0 :: drest)) := by
    rw [hsubnorm]
  cases lq with
  | false =>
    have hU : _limbs_modular_div_mod_schoolbook_blocks d0 drest d_inv qls ns hr false
        = (step.1, sub.1, sub.2 != (hr || add.2)) := by
      rw [_limbs_modular_div_mod_schoolbook_blocks, dif_neg hqd]
      rfl
    rw [hU]
    dsimp only
    have hHr : (if (hr || add.2) then (1 : Int) else 0)
        = (if hr then (1 : Int) else 0) + (if add.2 then (1 : Int) else 0) := by
      cases hhr2 : hr
      · simp
      · have h2 := hNoDouble hhr2
        rw [h2]
        simp
    have hBrw : (if sub.2 then (1 : Int) else 0)
        = (if (hr || add.2) then (1 : Int) else 0)
          + (if (sub.2 != (hr || add.2)) then (1 : Int) else 0) := by
      cases hor : (hr || add.2)
      · cases hs : sub.2 <;> simp
      · have hs2 : sub.2 = true := by
          rw [hsub2iff]
          exact decide_eq_true (hR0ltD hor)
        rw [hs2]
        simp
    have hBorrow : (if (sub.2 != (hr || add.2)) then ((limbBase : Int)) ^ d else 0)
        = (if (sub.2 != (hr || add.2)) then (1 : Int) else 0) * ((limbBase : Int)) ^ d := by
      cases (sub.2 != (hr || add.2)) <;> simp
    refine ⟨hL1, hsublen, hB1, hsubB, ?_⟩
    rw [hexp, hBorrow,
      show (if (false : Bool) = true then (0 : Int) else 1) = 1 from by norm_num]
    linear_combination hStar - ((limbBase : Int)) ^ qls * hSubVal
      - ((limbBase : Int)) ^ d * ((limbBase : Int)) ^ qls * hHr
      - ((limbBase : Int)) ^ d * ((limbBase : Int)) ^ qls * hBrw
  | true =>
    have hhrf : hr = false := hlqhr rfl
    subst hhrf
    set qa := limbs_slice_add_limb_in_place step.1 1 with hqadef
    have hqanorm : qa = (natToLimbs (limbsVal step.1 + 1) qls,
        decide (limbBase ^ qls ≤ limbsVal step.1 + 1)) := by
      rw [hqadef]
      simp only [limbs_slice_add_limb_in_place, hL1]
    have hU : _limbs_modular_div_mod_schoolbook_blocks d0 drest d_inv qls ns false true
        = (if qa.2 then (qa.1, r0, false)
           else (qa.1, sub.1, sub.2 != (false || add.2))) := by
      rw [_limbs_modular_div_mod_schoolbook_blocks, dif_neg hqd]
      rfl
    have hqalen : qa.1.length = qls := by rw [hqanorm, length_natToLimbs]
    have hqaB : ∀ x ∈ qa.1, x < limbBase := by
      rw [hqanorm]
      exact natToLimbs_lt _ _
    rcases Bool.eq_false_or_eq_true qa.2 with hqa2 | hqa2
    · -- the +1 carries out of the whole quotient: the quotient is zero
      have hU2 : _limbs_modular_div_mod_schoolbook_blocks d0 drest d_inv qls ns false true
          = (qa.1, r0, false) := by
        rw [hU, hqa2]
        simp
      rw [hU2]
      dsimp only
      have hgeq : limbBase ^ qls ≤ limbsVal step.1 + 1 := by
        rw [hqanorm] at hqa2
        simpa using hqa2
      have hLqNat : limbsVal step.1 < limbBase ^ qls := by
        have := limbsVal_lt step.1 hB1
        rwa [hL1] at this
      have hLqtop : limbsVal step.1 + 1 = limbBase ^ qls := by omega
      have hQa0 : limbsVal qa.1 = 0 := by
        rw [hqanorm]
        simp only [limbsVal_natToLimbs]
        rw [hLqtop, Nat.mod_self]
      have hlv : (limbsVal step.1 : Int) = ((limbBase : Int)) ^ qls - 1 := by
        have h5 : ((limbsVal step.1 + 1 : Nat) : Int) = ((limbBase ^ qls : Nat) : Int) := by
          exact_mod_cast congrArg (fun x : Nat => (x : Int)) hLqtop
        push_cast at h5
        linarith
      have hovf : add.2 = false := by
        by_contra hov
        rw [Bool.not_eq_false] at hov
        rw [hov, if_pos rfl, one_mul, hlv] at hStar
        have hz : (((limbBase : Int)) ^ qls - 1 - (((limbBase : Int)) ^ qls - 1))
            * (limbsVal (d0 :: drest) : Int) = 0 := by ring
        rw [hz] at hStar
        have hge : ((limbBase : Int)) ^ d * ((limbBase : Int)) ^ qls
            ≤ (limbsVal ns : Int) := by
          have := mul_nonneg (le_of_lt hBqpos) hR0nn
          linarith [hStar]
        linarith [hNslt]
      rw [hovf] at hStar
      norm_num at hStar
      have hQa0I : ((limbsVal qa.1 : Nat) : Int) = 0 := by exact_mod_cast hQa0
      refine ⟨hqalen, hR0len, hqaB, hR0B, ?_⟩
      rw [hexp, hQa0I,
        show (if (true : Bool) = true then (0 : Int) else 1) = 0 from by norm_num,
        show (if (false : Bool) = true then (1 : Int) else 0) = 0 from by norm_num,
        show (if (false : Bool) = true then ((limbBase : Int)) ^ d else 0) = 0
          from by norm_num]
      linear_combination hStar + (limbsVal (d0 :: drest) : Int) * hlv
    · -- the +1 is absorbed without carrying out
      have hU2 : _limbs_modular_div_mod_schoolbook_blocks d0 drest d_inv qls ns false true
          = (qa.1, sub.1, sub.2 != (false || add.2)) := by
        rw [hU, hqa2]
        simp
      rw [hU2]
      dsimp only
      have hlt : limbsVal step.1 + 1 < limbBase ^ qls := by
        rw [hqanorm] at hqa2
        simp only [decide_eq_false_iff_not] at hqa2
        omega
      have hQaVal : ((limbsVal qa.1 : Nat) : Int) = (limbsVal step.1 : Int) + 1 := by
        rw [hqanorm]
        simp only [limbsVal_natToLimbs]
        rw [Nat.mod_eq_of_lt hlt]
        push_cast
        ring
      have hHr : (if (false || add.2) then (1 : Int) else 0)
          = (if add.2 then (1 : Int) else 0) := by
        simp
      have hBrw : (if sub.2 then (1 : Int) else 0)
          = (if (false || add.2) then (1 : Int) else 0)
            + (if (sub.2 != (false || add.2)) then (1 : Int) else 0) := by
        cases hor : (false || add.2)
        · cases hs : sub.2 <;> simp
        · have hs2 : sub.2 = true := by
            rw [hsub2iff]
            exact decide_eq_true (hR0ltD hor)
          rw [hs2]
          simp
      have hBorrow : (if (sub.2 != (false || add.2)) then ((limbBase : Int)) ^ d else 0)
          = (if (sub.2 != (false || add.2)) then (1 : Int) else 0)
            * ((limbBase : Int)) ^ d := by
        cases (sub.2 != (false || add.2)) <;> simp
      refine ⟨hqalen, hsublen, hqaB, hsubB, ?_⟩
      rw [hexp, hBorrow,
        show (if (true : Bool) = true then (0 : Int) else 1) = 0 from by norm_num,
        show (if (false : Bool) = true then (1 : Int) else 0) = 0 from by norm_num]
      linear_combination hStar - ((limbBase : Int)) ^ qls * hSubVal
        - (limbsVal (d0 :: drest) : Int) * hQaVal
        - ((limbBase : Int)) ^ d * ((limbBase : Int)) ^ qls * hHr
        - ((limbBase : Int)) ^ d * ((limbBase : Int)) ^ qls * hBrw

set_option maxHeartbeats 1600000 in
/-- Full spec of the chunked loop of `_limbs_modular_div_mod_schoolbook`, by
strong induction on the number of quotient limbs still to produce. -/
theorem _limbs_modular_div_mod_schoolbook_blocks_spec :
    ∀ (qls : Nat) (d0 : Nat) (drest : List Nat) (d_inv : Nat) (ns : List Nat)
      (hr lq : Bool),
      (∀ x ∈ (d0 :: drest), x < limbBase) →
      (d_inv * d0 + 1) % limbBase = 0 →
      ns.length = (d0 :: drest).length + qls →
      (∀ x ∈ ns, x < limbBase) →
      0 < qls →
      (lq = true → hr = false) →
      (hr = true → limbsVal ns < limbsVal (d0 :: drest)) →
      (_limbs_modular_div_mod_schoolbook_blocks d0 drest d_inv qls ns hr lq).1.length
        = qls ∧
      (_limbs_modular_div_mod_schoolbook_blocks d0 drest d_inv qls ns hr lq).2.1.length
        = (d0 :: drest).length ∧
      (∀ x ∈ (_limbs_modular_div_mod_schoolbook_blocks d0 drest d_inv qls ns hr lq).1,
        x < limbBase) ∧
      (∀ x ∈ (_limbs_modular_div_mod_schoolbook_blocks d0 drest d_inv qls ns hr lq).2.1,
        x < limbBase) ∧
      ((limbsVal ns : Int) + (if hr then 1 else 0) * (limbBase : Int) ^ ns.length
        - ((limbsVal
              (_limbs_modular_div_mod_schoolbook_blocks d0 drest d_inv qls ns hr lq).1 : Int)
            + (if lq then 0 else 1)) * (limbsVal (d0 :: drest) : Int)
        = (limbBase : Int) ^ qls
          * ((limbsVal
                (_limbs_modular_div_mod_schoolbook_blocks d0 drest d_inv qls ns hr lq).2.1 : Int)
            - (if (_limbs_modular_div_mod_schoolbook_blocks d0 drest d_inv qls ns hr lq).2.2
                then (limbBase : Int) ^ (d0 :: drest).length else 0))) := by
  intro qls
  induction qls using Nat.strong_induction_on with
  | _ qls ih =>
    intro d0 drest d_inv ns hr lq hdl hinv hlen hns hqpos hlqhr hhr
    by_cases hqd : (d0 :: drest).length < qls
    case neg =>
      exact mod_sb_blocks_final_spec d0 drest d_inv qls ns hr lq hdl hinv hlen hns
        hqpos hqd hlqhr hhr
    case pos =>
    set d := (d0 :: drest).length with hddef
    have hdpos : 0 < d := by rw [hddef]; simp only [List.length_cons]; omega
    have hstep := mod_sb_inner_spec (d0 :: drest) d_inv (by simp) hdl
      (by simpa using hinv) d ns (by omega) hns
    set step := mod_sb_inner (d0 :: drest) d_inv d ns with hstepdef
    obtain ⟨hL1, hL2, hL3, hB1, hB2, hB3, hVal⟩ := hstep
    rw [← hddef] at hVal
    have hrestlen : step.2.2.length = qls := by rw [hL3, hlen]; omega
    set add := limbs_slice_add_greater_in_place_left step.2.2 step.2.1 with hadddef
    have haddnorm : add = (natToLimbs (limbsVal step.2.2 + limbsVal step.2.1) qls,
        decide (limbBase ^ qls ≤ limbsVal step.2.2 + limbsVal step.2.1)) := by
      rw [hadddef]
      simp only [limbs_slice_add_greater_in_place_left, hrestlen]
    have hrestval : limbsVal step.2.2 < limbBase ^ qls := by
      have := limbsVal_lt step.2.2 hB3
      rwa [hrestlen] at this
    have hBd_le_Bq : limbBase ^ d ≤ limbBase ^ qls :=
      Nat.pow_le_pow_right (le_of_lt one_lt_limbBase) (le_of_lt hqd)
    have hcsval : limbsVal step.2.1 < limbBase ^ qls := by
      have h1 := limbsVal_lt step.2.1 hB2
      rw [hL2] at h1
      omega
    have hAddVal : ((limbsVal add.1 : Nat) : Int)
        = (limbsVal step.2.2 : Int) + limbsVal step.2.1
          - (if add.2 then ((limbBase : Int)) ^ qls else 0) := by
      rw [haddnorm]
      simp only [decide_eq_true_eq]
      exact wrapAdd_val qls _ _ hrestval hcsval
    have haddlen : add.1.length = qls := by rw [haddnorm, length_natToLimbs]
    have haddB : ∀ x ∈ add.1, x < limbBase := by
      rw [haddnorm]
      exact natToLimbs_lt _ _
    -- integer bound facts
    have hBpos : (0 : Int) < (limbBase : Int) := by norm_num [limbBase_eq]
    have hBdpos : (0 : Int) < ((limbBase : Int)) ^ d := pow_pos hBpos _
    have hBqpos : (0 : Int) < ((limbBase : Int)) ^ qls := pow_pos hBpos _
    have hDpos : (0 : Int) < (limbsVal (d0 :: drest) : Int) := by
      have hd0pos : 0 < d0 := by
        rcases Nat.eq_zero_or_pos d0 with h | h
        · rw [h] at hinv
          rw [Nat.mul_zero, Nat.zero_add, Nat.mod_eq_of_lt one_lt_limbBase] at hinv
          omega
        · exact h
      have : 0 < limbsVal (d0 :: drest) := by
        rw [limbsVal_cons]
        omega
      exact_mod_cast this
    have hDlt : (limbsVal (d0 :: drest) : Int) < ((limbBase : Int)) ^ d := by
      have := limbsVal_lt (d0 :: drest) hdl
      rw [← hddef] at this
      exact_mod_cast this
    have hNslt : (limbsVal ns : Int)
        < ((limbBase : Int)) ^ d * ((limbBase : Int)) ^ qls := by
      have := limbsVal_lt ns hns
      rw [hlen] at this
      have h2 : ((limbsVal ns : Nat) : Int) < ((limbBase : Int)) ^ (d + qls) := by
        exact_mod_cast this
      rwa [pow_add] at h2
    have hLqlt : (limbsVal step.1 : Int) < ((limbBase : Int)) ^ d := by
      have := limbsVal_lt step.1 hB1
      rw [hL1] at this
      exact_mod_cast this
    have hq'd : (((limbBase : Int)) ^ d - 1 - limbsVal step.1) * limbsVal (d0 :: drest)
        ≤ (((limbBase : Int)) ^ d - 1) * limbsVal (d0 :: drest) := by
      apply mul_le_mul_of_nonneg_right _ (le_of_lt hDpos)
      have := Int.natCast_nonneg (limbsVal step.1)
      omega
    have hring : (((limbBase : Int)) ^ d - 1) * limbsVal (d0 :: drest)
        = ((limbBase : Int)) ^ d * limbsVal (d0 :: drest) - limbsVal (d0 :: drest) := by
      ring
    have hmerge : ((limbBase : Int)) ^ d * limbsVal step.2.2
          + ((limbBase : Int)) ^ d * limbsVal step.2.1
        = ((limbBase : Int)) ^ d * ((limbsVal step.2.2 : Int) + limbsVal step.2.1) := by
      ring
    -- if the running numerator is already below D, the carry fold cannot overflow
    have hSmall : (limbsVal ns : Int) < limbsVal (d0 :: drest) →
        (limbsVal step.2.2 : Int) + limbsVal step.2.1 < limbsVal (d0 :: drest) := by
      intro hND
      have h1 : ((limbBase : Int)) ^ d * ((limbsVal step.2.2 : Int) + limbsVal step.2.1)
          < ((limbBase : Int)) ^ d * limbsVal (d0 :: drest) := by
        linarith [hVal, hq'd, hring, hmerge]
      exact lt_of_mul_lt_mul_left h1 (le_of_lt hBdpos)
    have hNoDouble : hr = true → add.2 = false := by
      intro h
      have hND : (limbsVal ns : Int) < limbsVal (d0 :: drest) := by
        exact_mod_cast hhr h
      have h2 := hSmall hND
      have h3 : limbsVal step.2.2 + limbsVal step.2.1 < limbBase ^ qls := by
        have hDq : (limbsVal (d0 :: drest) : Int) < ((limbBase : Int)) ^ qls := by
          have : ((limbBase : Int)) ^ d ≤ ((limbBase : Int)) ^ qls := by
            exact_mod_cast hBd_le_Bq
          linarith
        have h4 : (limbsVal step.2.2 : Int) + limbsVal step.2.1
            < ((limbBase : Int)) ^ qls := by linarith
        exact_mod_cast h4
      rw [haddnorm]
      simp only [decide_eq_false_iff_not]
      omega
    -- if any overflow has occurred, the folded value is below D
    have hAdd1 : (hr || add.2) = true → limbsVal add.1 < limbsVal (d0 :: drest) := by
      intro h
      have hgoal : ((limbsVal add.1 : Nat) : Int) < (limbsVal (d0 :: drest) : Int) := by
        rcases Bool.or_eq_true_iff.mp h with hcase | hcase
        · have hov : add.2 = false := hNoDouble hcase
          rw [hov] at hAddVal
          norm_num at hAddVal
          have hND : (limbsVal ns : Int) < limbsVal (d0 :: drest) := by
            exact_mod_cast hhr hcase
          have h2 := hSmall hND
          linarith [hAddVal]
        · rw [hcase, if_pos rfl] at hAddVal
          have h1 : ((limbBase : Int)) ^ d
                * ((limbsVal step.2.2 : Int) + limbsVal step.2.1)
              < ((limbBase : Int)) ^ d * (((limbBase : Int)) ^ qls
                + limbsVal (d0 :: drest)) := by
            have hexpand : ((limbBase : Int)) ^ d * (((limbBase : Int)) ^ qls
                  + limbsVal (d0 :: drest))
                = ((limbBase : Int)) ^ d * ((limbBase : Int)) ^ qls
                  + ((limbBase : Int)) ^ d * limbsVal (d0 :: drest) := by ring
            linarith [hVal, hq'd, hring, hmerge, hNslt, hexpand]
          have h2 := lt_of_mul_lt_mul_left h1 (le_of_lt hBdpos)
          linarith [hAddVal]
      exact_mod_cast hgoal
    -- exponent bridges
    have hqsplit : ((limbBase : Int)) ^ qls
        = ((limbBase : Int)) ^ d * ((limbBase : Int)) ^ (qls - d) := by
      rw [← pow_add]
      congr 1
      omega
    have hovsc : (if add.2 then ((limbBase : Int)) ^ qls else 0)
        = (if add.2 then (1 : Int) else 0) * ((limbBase : Int)) ^ qls := by
      cases add.2 <;> simp
    rw [hovsc, hqsplit] at hAddVal
    have hexp : ((limbBase : Int)) ^ ns.length
        = ((limbBase : Int)) ^ d
          * (((limbBase : Int)) ^ d * ((limbBase : Int)) ^ (qls - d)) := by
      rw [hlen, pow_add, hqsplit]
    cases lq with
    | false =>
      set r := _limbs_modular_div_mod_schoolbook_blocks d0 drest d_inv (qls - d)
        add.1 (hr || add.2) false with hrdef
      have hU : _limbs_modular_div_mod_schoolbook_blocks d0 drest d_inv qls ns hr false
          = (step.1 ++ r.1, r.2.1, r.2.2) := by
        rw [_limbs_modular_div_mod_schoolbook_blocks, dif_pos hqd]
        rfl
      have hIH := ih (qls - d) (by omega) d0 drest d_inv add.1 (hr || add.2) false
        hdl hinv (by rw [haddlen, ← hddef]; omega) haddB (by omega)
        (by intro h; exact absurd h Bool.false_ne_true) hAdd1
      rw [← hddef] at hIH
      obtain ⟨hIL1, hIL2, hIB1, hIB2, hIHeq⟩ := hIH
      rw [← hrdef] at hIL1 hIL2 hIB1 hIB2 hIHeq
      rw [haddlen, hqsplit] at hIHeq
      rw [show (if (false : Bool) = true then (0 : Int) else 1) = 1 from by norm_num]
        at hIHeq
      have hHr : (if (hr || add.2) then (1 : Int) else 0)
          = (if hr then (1 : Int) else 0) + (if add.2 then (1 : Int) else 0) := by
        cases hhr2 : hr
        · simp
        · rw [hNoDouble hhr2]
          simp
      rw [hHr] at hIHeq
      rw [hU]
      dsimp only
      refine ⟨?_, hIL2, ?_, hIB2, ?_⟩
      · rw [List.length_append, hL1, hIL1]
        omega
      · intro x hx
        rcases List.mem_append.mp hx with hx | hx
        · exact hB1 x hx
        · exact hIB1 x hx
      · have happ : ((limbsVal (step.1 ++ r.1) : Nat) : Int)
            = (limbsVal step.1 : Int) + ((limbBase : Int)) ^ d * limbsVal r.1 := by
          have : limbsVal (step.1 ++ r.1)
              = limbsVal step.1 + limbBase ^ d * limbsVal r.1 := by
            rw [limbsVal_append, hL1]
          exact_mod_cast this
        rw [hexp, happ, hqsplit,
          show (if (false : Bool) = true then (0 : Int) else 1) = 1 from by norm_num]
        linear_combination hVal - ((limbBase : Int)) ^ d * hAddVal
          + ((limbBase : Int)) ^ d * hIHeq
    | true =>
      have hhrf : hr = false := hlqhr rfl
      subst hhrf
      set qa := limbs_slice_add_limb_in_place step.1 1 with hqadef
      have hqanorm : qa = (natToLimbs (limbsVal step.1 + 1) d,
          decide (limbBase ^ d ≤ limbsVal step.1 + 1)) := by
        rw [hqadef]
        simp only [limbs_slice_add_limb_in_place, hL1]
      have hqalen : qa.1.length = d := by rw [hqanorm, length_natToLimbs]
      have hqaB : ∀ x ∈ qa.1, x < limbBase := by
        rw [hqanorm]
        exact natToLimbs_lt _ _
      have hLqNat : limbsVal step.1 < limbBase ^ d := by
        have := limbsVal_lt step.1 hB1
        rwa [hL1] at this
      have h1ltBd : 1 < limbBase ^ d :=
        lt_of_lt_of_le one_lt_limbBase (Nat.le_self_pow (by omega) _)
      have hQaVal : ((limbsVal qa.1 : Nat) : Int)
          = (limbsVal step.1 : Int) + 1
            - (if qa.2 then (1 : Int) else 0) * ((limbBase : Int)) ^ d := by
        rw [hqanorm]
        simp only [decide_eq_true_eq]
        rw [wrapAdd_val d _ 1 hLqNat h1ltBd]
        by_cases hc : limbBase ^ d ≤ limbsVal step.1 + 1
        · rw [if_pos hc, if_pos hc]
          push_cast
          ring
        · rw [if_neg hc, if_neg hc]
          push_cast
          ring
      have hqa2imp : qa.2 = true → add.2 = false := by
        intro h
        have hge : limbBase ^ d ≤ limbsVal step.1 + 1 := by
          rw [hqanorm] at h
          simpa using h
        have htop : (limbsVal step.1 : Int) = ((limbBase : Int)) ^ d - 1 := by
          have h5 : limbsVal step.1 + 1 = limbBase ^ d := by omega
          have h6 : ((limbsVal step.1 + 1 : Nat) : Int)
              = ((limbBase ^ d : Nat) : Int) := by exact_mod_cast h5
          push_cast at h6
          linarith
        by_contra hov
        rw [Bool.not_eq_false] at hov
        have hsum : limbBase ^ qls ≤ limbsVal step.2.2 + limbsVal step.2.1 := by
          rw [haddnorm] at hov
          simpa using hov
        have hNeq : (limbsVal ns : Int)
            = ((limbBase : Int)) ^ d
              * ((limbsVal step.2.2 : Int) + limbsVal step.2.1) := by
          linear_combination hVal + (limbsVal (d0 :: drest) : Int) * htop
        have hsumI : ((limbBase : Int)) ^ qls
            ≤ (limbsVal step.2.2 : Int) + limbsVal step.2.1 := by exact_mod_cast hsum
        have h7 : ((limbBase : Int)) ^ d * ((limbBase : Int)) ^ qls
            ≤ ((limbBase : Int)) ^ d
              * ((limbsVal step.2.2 : Int) + limbsVal step.2.1) :=
          mul_le_mul_of_nonneg_left hsumI (le_of_lt hBdpos)
        linarith [hNslt, hNeq]
      set r := _limbs_modular_div_mod_schoolbook_blocks d0 drest d_inv (qls - d)
        add.1 add.2 qa.2 with hrdef
      have hU : _limbs_modular_div_mod_schoolbook_blocks d0 drest d_inv qls ns false true
          = (qa.1 ++ r.1, r.2.1, r.2.2) := by
        rw [_limbs_modular_div_mod_schoolbook_blocks, dif_pos hqd]
        rfl
      have hIH := ih (qls - d) (by omega) d0 drest d_inv add.1 add.2 qa.2 hdl hinv
        (by rw [haddlen, ← hddef]; omega) haddB (by omega) hqa2imp
        (fun h => hAdd1 (by rw [h]; rfl))
      rw [← hddef] at hIH
      obtain ⟨hIL1, hIL2, hIB1, hIB2, hIHeq⟩ := hIH
      rw [← hrdef] at hIL1 hIL2 hIB1 hIB2 hIHeq
      rw [haddlen, hqsplit] at hIHeq
      rw [show ∀ b : Bool, (if b then (0 : Int) else 1) = 1 - (if b then (1 : Int) else 0)
        from by intro b; cases b <;> simp] at hIHeq
      rw [hU]
      dsimp only
      refine ⟨?_, hIL2, ?_, hIB2, ?_⟩
      · rw [List.length_append, hqalen, hIL1]
        omega
      · intro x hx
        rcases List.mem_append.mp hx with hx | hx
        · exact hqaB x hx
        · exact hIB1 x hx
      · have happ : ((limbsVal (qa.1 ++ r.1) : Nat) : Int)
            = (limbsVal qa.1 : Int) + ((limbBase : Int)) ^ d * limbsVal r.1 := by
          have : limbsVal (qa.1 ++ r.1)
              = limbsVal qa.1 + limbBase ^ d * limbsVal r.1 := by
            rw [limbsVal_append, hqalen]
          exact_mod_cast this
        rw [hexp, happ, hQaVal, hqsplit,
          show (if (true : Bool) = true then (0 : Int) else 1) = 0 from by norm_num,
          show (if (false : Bool) = true then (1 : Int) else 0) = 0 from by norm_num]
        linear_combination hVal - ((limbBase : Int)) ^ d * hAddVal
          + ((limbBase : Int)) ^ d * hIHeq

/-- Correctness of `_limbs_modular_div_mod_schoolbook` (mpn_sbpi1_bdiv_qr):
`N - Q * D = B ^ q_len * (R - borrow * B ^ d_len)` with `Q` of length
`q_len = n - d` and `R` of length `d`. -/
theorem _limbs_modular_div_mod_schoolbook_spec (ns ds : List Nat) (d_inv : Nat)
    (hds : ds ≠ [])
    (hdl : ∀ x ∈ ds, x < limbBase)
    (hinv : (d_inv * ds.headD 0 + 1) % limbBase = 0)
    (hlen : ds.length < ns.length)
    (hns : ∀ x ∈ ns, x < limbBase) :
    (_limbs_modular_div_mod_schoolbook ns ds d_inv).1.length = ns.length - ds.length ∧
    (_limbs_modular_div_mod_schoolbook ns ds d_inv).2.1.length = ds.length ∧
    (∀ x ∈ (_limbs_modular_div_mod_schoolbook ns ds d_inv).1, x < limbBase) ∧
    (∀ x ∈ (_limbs_modular_div_mod_schoolbook ns ds d_inv).2.1, x < limbBase) ∧
    ((limbsVal ns : Int)
        - (limbsVal (_limbs_modular_div_mod_schoolbook ns ds d_inv).1 : Int)
          * (limbsVal ds : Int)
      = (limbBase : Int) ^ (ns.length - ds.length)
        * ((limbsVal (_limbs_modular_div_mod_schoolbook ns ds d_inv).2.1 : Int)
          - (if (_limbs_modular_div_mod_schoolbook ns ds d_inv).2.2 then
              (limbBase : Int) ^ ds.length else 0))) := by
  rcases ds with _ | ⟨d0, drest⟩
  · exact absurd rfl hds
  have hinv0 : (d_inv * d0 + 1) % limbBase = 0 := by simpa using hinv
  have hb := _limbs_modular_div_mod_schoolbook_blocks_spec
    (ns.length - (d0 :: drest).length) d0 drest d_inv ns false true hdl hinv0
    (by omega) hns (by omega)
    (fun _ => rfl) (fun h => absurd h Bool.false_ne_true)
  have hU : _limbs_modular_div_mod_schoolbook ns (d0 :: drest) d_inv
      = _limbs_modular_div_mod_schoolbook_blocks d0 drest d_inv
          (ns.length - (d0 :: drest).length) ns false true := rfl
  rw [hU]
  obtain ⟨h1, h2, h3, h4, h5⟩ := hb
  refine ⟨h1, h2, h3, h4, ?_⟩
  rw [show (if (false : Bool) = true then (1 : Int) else 0) = 0 from by norm_num,
    show (if (true : Bool) = true then (0 : Int) else 1) = 0 from by norm_num] at h5
  linear_combination h5

/-! ### Divide-and-conquer Hensel division (dcpi1_bdiv_qr_n / dcpi1_bdiv_q)

The recursion thresholds `DC_BDIV_QR_THRESHOLD` and `DC_BDIV_Q_THRESHOLD` are
platform tuning constants not present under `src/` (the `src/` copy of
`platform_32.rs` stops before the threshold block), so they are taken as
parameters `Tqr`, `Tq`; the positivity argument `0 < Tqr` is what makes the
size-halving recursion terminate, as in GMP, where every such threshold is
at least 2. -/

/-- `_limbs_modular_div_mod_divide_and_conquer_helper` from `div_exact.rs`
(mpn_dcpi1_bdiv_qr_n): halves the divisor, divides the low part, subtracts
the cross product `D_hi * Q_lo` (plus the propagated carry) from the moving
window, and repeats on the high half. Returns `(Q, R, borrow)` for the
`2 * ds.len()`-limb prefix of `ns`. -/
def _limbs_modular_div_mod_divide_and_conquer_helper
    (Tqr : Nat) (hT : 2 ≤ Tqr) (ns ds : List Nat) (d_inv : Nat) :
    List Nat × List Nat × Bool :=
  let n := ds.length
  let ns2 := ns.take (2 * n)
  let lo := n / 2
  let hi := n - lo
  let r1 :=
    if h1 : lo < Tqr then
      _limbs_modular_div_mod_schoolbook (ns2.take (2 * lo)) (ds.take lo) d_inv
    else
      _limbs_modular_div_mod_divide_and_conquer_helper Tqr hT ns2 (ds.take lo) d_inv
  let scr1 := limbs_mul_greater_to_out (ds.drop lo) r1.1
  let scr1' := if r1.2.2 then
      scr1.take lo ++ (limbs_slice_add_limb_in_place (scr1.drop lo) 1).1
    else scr1
  let s1 := limbs_sub_in_place_left (r1.2.1 ++ ns2.drop (2 * lo)) scr1'
  let r2 :=
    if h2 : hi < Tqr then
      _limbs_modular_div_mod_schoolbook (s1.1.take (2 * hi)) (ds.take hi) d_inv
    else
      _limbs_modular_div_mod_divide_and_conquer_helper Tqr hT s1.1 (ds.take hi) d_inv
  let scr2 := limbs_mul_greater_to_out r2.1 (ds.drop hi)
  let scr2' := if r2.2.2 then
      scr2.take hi ++ (limbs_slice_add_limb_in_place (scr2.drop hi) 1).1
    else scr2
  let s2 := limbs_sub_same_length_in_place_left (r2.2.1 ++ s1.1.drop (2 * hi)) scr2'
  (r1.1 ++ r2.1, s2.1, s2.2 || s1.2)
termination_by ds.length
decreasing_by
  · rw [List.length_take]
    have hTqr := Nat.le_of_not_lt h1
    have hn : n = ds.length := rfl
    have hlo : lo = n / 2 := rfl
    have h4 : lo < ds.length := by omega
    exact lt_of_le_of_lt (Nat.min_le_left _ _) h4
  · rw [List.length_take]
    have hTqr := Nat.le_of_not_lt h2
    have hn : n = ds.length := rfl
    have hlo : lo = n / 2 := rfl
    have hhi : hi = n - lo := rfl
    have h4 : hi < ds.length := by omega
    exact lt_of_le_of_lt (Nat.min_le_left _ _) h4

/-- `_limbs_modular_div_divide_and_conquer_helper` from `div_exact.rs`
(mpn_dcpi1_bdiv_q_n): the quotient-only divide-and-conquer loop. `n_rem` is
the length of the remaining window `ns` (the source recovers it from the
slice bounds; here it is passed along explicitly). Each round produces the
`lo` low quotient limbs via the qr helper, subtracts the cross products
`Q_lo * D_hi` (low-multiply at offset `hi`, plus the single-limb column
`ds[lo]` when `n_rem` is odd, with borrows wrapped at the top limb), and
recurses on the upper `hi`-limb window. -/
def _limbs_modular_div_divide_and_conquer_helper
    (Tq Tqr : Nat) (hTq : 2 ≤ Tq) (hTqr : 2 ≤ Tqr) (ds : List Nat) (d_inv : Nat) :
    Nat → List Nat → List Nat
  | n_rem, ns =>
    if h : Tq ≤ n_rem then
      let lo := n_rem / 2
      let hi := n_rem - lo
      let r := _limbs_modular_div_mod_divide_and_conquer_helper Tqr hTqr ns
        (ds.take lo) d_inv
      let tail0 := (r.2.1 ++ ns.drop (2 * lo)).take hi
      let sc := limbs_mul_low_same_length r.1 ((ds.drop hi).take lo)
      let t2 := limbs_sub_same_length_in_place_left (tail0.drop (hi - lo)) sc
      let tail1 := tail0.take (hi - lo) ++ t2.1
      let tail2 :=
        if lo < hi then
          let sm := limbs_sub_mul_limb_same_length_in_place_left (tail1.take lo)
            r.1 (ds.getD lo 0)
          let withmid := sm.1 ++ tail1.drop lo
          let adj := wsub (withmid.getLast?.getD 0) sm.2
          withmid.dropLast ++ [if r.2.2 then wsub adj 1 else adj]
        else tail1
      r.1 ++ _limbs_modular_div_divide_and_conquer_helper Tq Tqr hTq hTqr ds d_inv
        hi tail2
    else
      _limbs_modular_div_schoolbook ns (ds.take n_rem) d_inv
termination_by n_rem _ => n_rem
decreasing_by
  omega

/-- The `while m != diff` block loop of `_limbs_modular_div_divide_and_conquer`
(only reached when `ns` is longer than `ds`): repeatedly applies the qr
divide-and-conquer helper to full-`d_len` windows, first propagating the
previous round's carry as a `-1` into the rest of the numerator (that
subtraction's own borrow is dropped, as in the source). Returns the produced
quotient limbs and the final window `ns[diff..]`. -/
def _limbs_modular_div_divide_and_conquer_blocks
    (Tqr : Nat) (hTqr : 2 ≤ Tqr) (ds : List Nat) (d_inv : Nat) :
    Nat → List Nat → Bool → List Nat × List Nat
  | 0, nsw, _ => ([], nsw)
  | count + 1, nsw, carry =>
    let sb := limbs_sub_limb_in_place (nsw.drop ds.length) 1
    let nsw1 := if carry then nsw.take ds.length ++ sb.1 else nsw
    let r := _limbs_modular_div_mod_divide_and_conquer_helper Tqr hTqr nsw1 ds d_inv
    let cont := _limbs_modular_div_divide_and_conquer_blocks Tqr hTqr ds d_inv count
      (r.2.1 ++ nsw1.drop (2 * ds.length)) r.2.2
    (r.1 ++ cont.1, cont.2)

/-- `_limbs_modular_div_divide_and_conquer` from `div_exact.rs`
(mpn_dcpi1_bdiv_q): `Q = N / D mod B ^ ns.len()`. When `ns` is longer than
`ds`, an initial block of size `n_len mod d_len` (or `d_len`) is divided
first, the cross product `D_hi * Q_block` is subtracted from the rest of the
numerator, full-size blocks follow via the qr helper, and the last `d_len`
quotient limbs come from the quotient-only helper. -/
def _limbs_modular_div_divide_and_conquer
    (Tq Tqr : Nat) (hTq : 2 ≤ Tq) (hTqr : 2 ≤ Tqr) (ns ds : List Nat)
    (d_inv : Nat) : List Nat :=
  let n_len := ns.length
  let d_len := ds.length
  if n_len > d_len then
    let nlm := if n_len % d_len = 0 then d_len else n_len % d_len
    let r1 :=
      if nlm < Tqr then
        _limbs_modular_div_mod_schoolbook (ns.take (2 * nlm)) (ds.take nlm) d_inv
      else
        _limbs_modular_div_mod_divide_and_conquer_helper Tqr hTqr ns (ds.take nlm) d_inv
    let window0 :=
      if nlm ≠ d_len then
        let scr := limbs_mul_to_out (ds.drop nlm) (r1.1.take nlm)
        let scr' := if r1.2.2 then
            scr.take nlm ++ (limbs_slice_add_limb_in_place (scr.drop nlm) 1).1
          else scr
        let sub := limbs_sub_in_place_left (r1.2.1 ++ ns.drop (2 * nlm)) scr'
        (sub.1, false)
      else
        (r1.2.1 ++ ns.drop (2 * nlm), r1.2.2)
    let blocks := _limbs_modular_div_divide_and_conquer_blocks Tqr hTqr ds d_inv
      ((n_len - d_len - nlm) / d_len) window0.1 window0.2
    r1.1 ++ blocks.1
      ++ _limbs_modular_div_divide_and_conquer_helper Tq Tqr hTq hTqr ds d_inv
        d_len blocks.2
  else if n_len < Tq then
    _limbs_modular_div_schoolbook ns ds d_inv
  else
    _limbs_modular_div_divide_and_conquer_helper Tq Tqr hTq hTqr ds d_inv n_len ns
